import Mathlib

/-!
# cdcron: the scheduler loop of main.go

A shallow embedding of main.go: the tick delay, the skew check, the
completion callback, the dispatch loop, the shutdown drain and the schedule
preview, followed by theorems about them.

Conventions of the embedding.

* A time.Duration is an Int number of nanoseconds.
* A time.Time is its wall reading (nanoseconds since the Unix epoch)
  together with its optional monotonic reading (nanoseconds), as in the Go
  time package: time.Now carries both, Add shifts both, Unix, Second and
  Nanosecond read the wall part, After and Before compare the monotonic
  parts when both operands carry one and the wall parts otherwise.
  Second is taken in a zone whose offset is a whole number of minutes.
* A gauge stores the argument of its last Set call before the conversion to
  float64, as a symbolic value.
* A nil pointer dereference is a panic, and a panic ends the program.
-/

namespace Cdcron

/-! ## Durations and times -/

/-- A time.Duration: a signed count of nanoseconds. -/
abbrev Duration := Int

/-- The constant time.Nanosecond. -/
def Nanosecond : Duration := 1

/-- The constant time.Second. -/
def Second : Duration := 1000000000

/-- The constant time.Hour. -/
def Hour : Duration := 3600 * Second

/-- A time.Time: the wall clock reading in nanoseconds since the Unix epoch,
and the monotonic clock reading when the value carries one. -/
structure Time where
  wall : Int
  mono : Option Int
deriving DecidableEq, Repr

namespace Time

/-- Unix seconds of the instant: t.Unix(). -/
def Unix (t : Time) : Int := t.wall / 1000000000

/-- Second offset within the minute, in 0..59: t.Second(). -/
def Second (t : Time) : Int := (t.wall / 1000000000) % 60

/-- Nanosecond offset within the second, in 0..999999999: t.Nanosecond(). -/
def Nanosecond (t : Time) : Int := t.wall % 1000000000

/-- The instant shifted by d, on both clocks: t.Add(d). -/
def Add (t : Time) (d : Duration) : Time :=
  { wall := t.wall + d, mono := t.mono.map (fun m => m + d) }

/-- Whether t is after u: t.After(u). The monotonic readings alone decide
when both values carry one. -/
def After (t u : Time) : Bool :=
  match t.mono, u.mono with
  | some a, some b => decide (b < a)
  | _, _ => decide (u.wall < t.wall)

/-- Whether t is before u: t.Before(u). -/
def Before (t u : Time) : Bool :=
  match t.mono, u.mono with
  | some a, some b => decide (a < b)
  | _, _ => decide (t.wall < u.wall)

/-- Start of the wall-clock minute containing t, in nanoseconds. -/
def minuteStart (t : Time) : Int := t.wall / 60000000000 * 60000000000

/-- Index of the wall-clock minute containing t. -/
def minuteIndex (t : Time) : Int := t.wall / 60000000000

end Time

/-! ## The tick delay (main.go, lines 39-45) -/

/-- Delay from fromt to the next check, as computed by delayTillNextCheck. -/
def delayTillNextCheck (fromt : Time) : Duration :=
  30 * Second +
    (60 - fromt.Second) * Second -
    (fromt.Nanosecond % 1000000000) * Nanosecond

/-! ## Metrics (main.go, lines 25-37) -/

/-- Argument of a Gauge.Set call, before its conversion to float64. -/
inductive GaugeValue where
  /-- An integer constant, or float64 of an integer. -/
  | num (n : Int)
  /-- The value d.Seconds() of a duration d. -/
  | seconds (d : Duration)
  /-- The value float64(sec) + float64(usec) / 1000000.0 of a timeval. -/
  | timeval (sec usec : Int)
deriving DecidableEq, Repr

/-- A map from job names to counters (map[string]*cdmetrics.Counter): none is
the nil pointer of an unregistered name, some n a counter incremented n
times. -/
abbrev Counters := String → Option Nat

/-- A map from job names to gauges (map[string]*cdmetrics.Gauge): none is the
nil pointer of an unregistered name, some none a gauge never set, some (some
v) a gauge whose last Set call had argument v. -/
abbrev Gauges := String → Option (Option GaugeValue)

/-- Lines written by log.Printf, and the calls of Start and Wait. -/
inductive Event where
  | logFinished (job : String) (duration : Duration) (exitStatus : Int)
  | logForwardJump
  | logBackwardJump
  | logOverdue (job : String)
  | logStarting (job : String)
  | start (job : String)
  | logWaiting (job : String)
  | wait (job : String)
  | logScheduling (n : Nat)
deriving DecidableEq, Repr

/-- The package-level metrics of main.go and the output produced so far. -/
structure World where
  forwardTimeSkips : Nat
  backwardTimeSkips : Nat
  overdueCounter : Counters
  failureCounter : Counters
  successCounter : Counters
  durationGauge : Gauges
  maxrssBytesGauge : Gauges
  utimeGauge : Gauges
  stimeGauge : Gauges
  runningGauge : Gauges
  log : List Event

/-- Result of code that may panic: the state it ends in, or the state in
which the panic was raised. -/
inductive Result (σ : Type) where
  | ok (s : σ)
  | panic (s : σ)

/-- Run f on the state of a result that did not panic. -/
def Result.andThen {σ : Type} (r : Result σ) (f : σ → Result σ) : Result σ :=
  match r with
  | .ok s => f s
  | .panic s => .panic s

/-- State carried by a result, panic or not. -/
def Result.state {σ : Type} : Result σ → σ
  | .ok s => s
  | .panic s => s

/-- Whether the result is a panic. -/
def Result.panicked {σ : Type} : Result σ → Bool
  | .ok _ => false
  | .panic _ => true

/-- The call m[k].Inc() on a counter map: none when m[k] is nil. -/
def Counters.Inc (m : Counters) (k : String) : Option Counters :=
  match m k with
  | some n => some (Function.update m k (some (n + 1)))
  | none => none

/-- The call m[k].Set(v) on a gauge map: none when m[k] is nil. -/
def Gauges.Set (m : Gauges) (k : String) (v : GaugeValue) : Option Gauges :=
  match m k with
  | some _ => some (Function.update m k (some (some v)))
  | none => none

namespace World

/-- A log.Printf call. -/
def printf (w : World) (e : Event) : World := { w with log := w.log ++ [e] }

/-- The call overdueCounter[k].Inc(). -/
def incOverdue (k : String) (w : World) : Result World :=
  match w.overdueCounter.Inc k with
  | some m => .ok { w with overdueCounter := m }
  | none => .panic w

/-- The call failureCounter[k].Inc(). -/
def incFailure (k : String) (w : World) : Result World :=
  match w.failureCounter.Inc k with
  | some m => .ok { w with failureCounter := m }
  | none => .panic w

/-- The call successCounter[k].Inc(). -/
def incSuccess (k : String) (w : World) : Result World :=
  match w.successCounter.Inc k with
  | some m => .ok { w with successCounter := m }
  | none => .panic w

/-- The call durationGauge[k].Set(v). -/
def setDuration (k : String) (v : GaugeValue) (w : World) : Result World :=
  match w.durationGauge.Set k v with
  | some m => .ok { w with durationGauge := m }
  | none => .panic w

/-- The call maxrssBytesGauge[k].Set(v). -/
def setMaxrssBytes (k : String) (v : GaugeValue) (w : World) : Result World :=
  match w.maxrssBytesGauge.Set k v with
  | some m => .ok { w with maxrssBytesGauge := m }
  | none => .panic w

/-- The call utimeGauge[k].Set(v). -/
def setUtime (k : String) (v : GaugeValue) (w : World) : Result World :=
  match w.utimeGauge.Set k v with
  | some m => .ok { w with utimeGauge := m }
  | none => .panic w

/-- The call stimeGauge[k].Set(v). -/
def setStime (k : String) (v : GaugeValue) (w : World) : Result World :=
  match w.stimeGauge.Set k v with
  | some m => .ok { w with stimeGauge := m }
  | none => .panic w

/-- The call runningGauge[k].Set(v). -/
def setRunning (k : String) (v : GaugeValue) (w : World) : Result World :=
  match w.runningGauge.Set k v with
  | some m => .ok { w with runningGauge := m }
  | none => .panic w

/-- The metrics at program start: the two skew counters at zero, every map
empty, nothing logged. -/
def init : World :=
  { forwardTimeSkips := 0, backwardTimeSkips := 0,
    overdueCounter := fun _ => none, failureCounter := fun _ => none,
    successCounter := fun _ => none, durationGauge := fun _ => none,
    maxrssBytesGauge := fun _ => none, utimeGauge := fun _ => none,
    stimeGauge := fun _ => none, runningGauge := fun _ => none, log := [] }

/-- Whether every metric of job name k is registered. -/
def Registered (w : World) (k : String) : Prop :=
  w.overdueCounter k ≠ none ∧ w.failureCounter k ≠ none ∧ w.successCounter k ≠ none ∧
  w.durationGauge k ≠ none ∧ w.maxrssBytesGauge k ≠ none ∧ w.utimeGauge k ≠ none ∧
  w.stimeGauge k ≠ none ∧ w.runningGauge k ≠ none

end World

/-! ## The completion callback (main.go, lines 47-79) -/

/-- A syscall.WaitStatus, by the value of its ExitStatus method. -/
structure WaitStatus where
  ExitStatus : Int
deriving DecidableEq, Repr

/-- A non-nil error passed to the callback. -/
inductive GoError where
  /-- An *exec.ExitError; sys is the wait status when Sys() holds a
  syscall.WaitStatus. -/
  | exitError (sys : Option WaitStatus)
  /-- Any error that is not an *exec.ExitError, such as executable not found. -/
  | other
deriving DecidableEq, Repr

/-- A syscall.Timeval. -/
structure Timeval where
  Sec : Int
  Usec : Int
deriving DecidableEq, Repr

/-- The fields of syscall.Rusage read by the callback. -/
structure Rusage where
  Maxrss : Int
  Utime : Timeval
  Stime : Timeval
deriving DecidableEq, Repr

/-- Dynamic value returned by ProcessState.SysUsage(). -/
inductive SysUsage where
  /-- A *syscall.Rusage. -/
  | rusage (r : Rusage)
  /-- A value of any other type. -/
  | other
deriving DecidableEq, Repr

/-- An os.ProcessState, by what its SysUsage method returns. -/
structure ProcessState where
  SysUsage : SysUsage
deriving DecidableEq, Repr

/-- An exec.Cmd, by its ProcessState field: none is the nil pointer of a
command that was never waited for, which is the case when it could not be
launched. -/
structure Cmd where
  ProcessState : Option ProcessState
deriving DecidableEq, Repr

/-- Wrap-around of int64 arithmetic. -/
def wrapInt64 (x : Int) : Int :=
  (x + 9223372036854775808) % 18446744073709551616 - 9223372036854775808

/-- The exit status decoded at lines 49-58 of onJobExit. -/
def decodeExitStatus (err : Option GoError) : Int :=
  match err with
  | some e =>
    match e with
    | .exitError (some status) => status.ExitStatus
    | _ => 127
  | none => 0

/-- Lines 72-77 of onJobExit: the resource usage gauges. SysUsage returns the
rusage field of its receiver, so the call through a nil ProcessState
dereferences a nil pointer and panics. -/
def recordRusage (jobName : String) (duration : Duration) (cmd : Cmd) (w : World) :
    Result World :=
  match cmd.ProcessState with
  | none => .panic w
  | some ps =>
    match ps.SysUsage with
    | .rusage rusage =>
      (((World.setDuration jobName (.seconds duration) w).andThen
        (World.setMaxrssBytes jobName (.num (wrapInt64 (rusage.Maxrss * 1024))))).andThen
        (World.setUtime jobName (.timeval rusage.Utime.Sec rusage.Utime.Usec))).andThen
        (World.setStime jobName (.timeval rusage.Stime.Sec rusage.Stime.Usec))
    | .other => .ok w

/-- The callback onJobExit. -/
def onJobExit (jobName : String) (duration : Duration) (cmd : Cmd) (err : Option GoError)
    (w : World) : Result World :=
  let exitStatus := decodeExitStatus err
  let w := w.printf (.logFinished jobName duration exitStatus)
  (((World.setRunning jobName (.num 0) w).andThen
    (fun w => if exitStatus = 0 then World.incSuccess jobName w
      else World.incFailure jobName w)).andThen
    (World.setDuration jobName (.seconds duration))).andThen
    (recordRusage jobName duration cmd)

/-! ## Jobs -/

/-- Modelled from the spec: the Job type of the job table (its declaration
and methods are not part of the sources). A parsed job has a name and a
schedule matcher ShouldRunAt, taken here as an arbitrary predicate on
instants; its runner holds the running flag and the processes in flight. -/
structure Job where
  Name : String
  ShouldRunAt : Time → Bool
  running : Bool
  inFlight : Nat

namespace Job

/-- Modelled from the spec: IsRunning, absent from the sources, reads the
running flag. -/
def IsRunning (j : Job) : Bool := j.running

/-- Modelled from the spec: Start, absent from the sources, launches one
process and marks the job running until the completion callback. -/
def Start (j : Job) : Job := { j with running := true, inFlight := j.inFlight + 1 }

/-- Modelled from the spec: completion of the process in flight, absent from
the sources; the flag is cleared when the completion callback is invoked. -/
def finish (j : Job) : Job := { j with running := false, inFlight := j.inFlight - 1 }

/-- A job as the parser returns it: not running, nothing in flight. -/
def fresh (name : String) (sched : Time → Bool) : Job :=
  { Name := name, ShouldRunAt := sched, running := false, inFlight := 0 }

end Job

/-- Data handed to the completion callback of one process. -/
structure ExitData where
  duration : Duration
  cmd : Cmd
  err : Option GoError
deriving DecidableEq, Repr

/-- Completion of the process of the job at position idx of the table. -/
structure Exit where
  idx : Nat
  data : ExitData
deriving DecidableEq, Repr

/-- Replace the job at position i by f of it. -/
def modifyJob (f : Job → Job) : Nat → List Job → List Job
  | _, [] => []
  | 0, j :: js => f j :: js
  | i + 1, j :: js => j :: modifyJob f i js

/-- The completion callback of one process runs: nothing happens when the job
has no process in flight. -/
def complete (e : Exit) (jobs : List Job) (w : World) : List Job × Result World :=
  match jobs.get? e.idx with
  | some j =>
    if j.inFlight = 0 then (jobs, .ok w)
    else (modifyJob Job.finish e.idx jobs, onJobExit j.Name e.data.duration e.data.cmd e.data.err w)
  | none => (jobs, .ok w)

/-- Completion callbacks run one after the other, until one panics. -/
def completeAll : List Exit → List Job → World → List Job × Result World
  | [], jobs, w => (jobs, .ok w)
  | e :: es, jobs, w =>
    match complete e jobs w with
    | (jobs1, .ok w1) => completeAll es jobs1 w1
    | (jobs1, .panic w1) => (jobs1, .panic w1)

/-! ## The scheduler loop (main.go, lines 150-199) -/

/-- Lines 161-169: the skew check of one iteration. -/
def skewCheck (prevCheck actualPrevCheck : Time) (w : World) : World :=
  if actualPrevCheck.Unix ≠ prevCheck.Unix then
    if actualPrevCheck.After prevCheck then
      { w.printf .logForwardJump with forwardTimeSkips := w.forwardTimeSkips + 1 }
    else
      { w.printf .logBackwardJump with backwardTimeSkips := w.backwardTimeSkips + 1 }
  else w

/-- Lines 178-188: the body of the dispatch loop for one job. -/
def dispatchJob (now : Time) (j : Job) (w : World) : Job × Result World :=
  if !j.ShouldRunAt now then (j, .ok w)
  else if j.IsRunning then
    (j, World.incOverdue j.Name (w.printf (.logOverdue j.Name)))
  else
    match World.setRunning j.Name (.num 1) (w.printf (.logStarting j.Name)) with
    | .ok w1 => (j.Start, .ok (w1.printf (.start j.Name)))
    | .panic w1 => (j, .panic w1)

/-- Lines 177-189: the dispatch loop over the table, in table order. -/
def dispatch (now : Time) : List Job → World → List Job × Result World
  | [], w => ([], .ok w)
  | j :: js, w =>
    match dispatchJob now j w with
    | (j1, .ok w1) =>
      match dispatch now js w1 with
      | (js1, r) => (j1 :: js1, r)
    | (j1, .panic w1) => (j1 :: js, .panic w1)

/-- The case taken by the select statement of lines 171-175. -/
inductive WaitEvent where
  | timer
  | done
deriving DecidableEq, Repr

/-- What one loop iteration receives from outside: the reading of time.Now()
at line 156, the completion callbacks that run during the tick-wait, and the
select case that fires. Callbacks are grouped at the tick-wait because the
loop reads a running flag only in the dispatch that follows. -/
structure Tick where
  now : Time
  exits : List Exit
  ev : WaitEvent

/-- State of main at the top of the loop. -/
structure State where
  jobs : List Job
  w : World
  prevCheck : Time

/-- How a stretch of the loop ends: at the top of the next iteration, by the
break of line 174, or in a panic. -/
inductive Step where
  | next (s : State)
  | leave (s : State)
  | crash (s : State)

/-- State carried by a step. -/
def Step.state : Step → State
  | .next s => s
  | .leave s => s
  | .crash s => s

/-- Lines 156-191: one iteration of the scheduler loop. -/
def iteration (t : Tick) (s : State) : Step :=
  let now := t.now
  let delay := delayTillNextCheck now
  let nextCheck := now.Add delay
  let actualPrevCheck := nextCheck.Add (-60 * Second)
  let w1 := skewCheck s.prevCheck actualPrevCheck s.w
  match completeAll t.exits s.jobs w1 with
  | (jobs1, .panic w2) => .crash { jobs := jobs1, w := w2, prevCheck := s.prevCheck }
  | (jobs1, .ok w2) =>
    match t.ev with
    | .done => .leave { jobs := jobs1, w := w2, prevCheck := s.prevCheck }
    | .timer =>
      match dispatch now jobs1 w2 with
      | (jobs2, .ok w3) => .next { jobs := jobs2, w := w3, prevCheck := nextCheck }
      | (jobs2, .panic w3) => .crash { jobs := jobs2, w := w3, prevCheck := s.prevCheck }

/-- Lines 154-192: the scheduler loop, run over the given ticks. -/
def scheduler : List Tick → State → Step
  | [], s => .next s
  | t :: ts, s =>
    match iteration t s with
    | .next s1 => scheduler ts s1
    | .leave s1 => .leave s1
    | .crash s1 => .crash s1

/-- What the drain receives from outside: the callbacks that run on their own
before the job at each position is visited, and the completion data of the
process that Wait waits for there. -/
structure DrainEnv where
  exitsBefore : Nat → List Exit
  waited : Nat → ExitData

/-- Lines 195-198: the visit of the job at position i. Modelled from the
spec: Wait, absent from the sources, returns once the process in flight has
completed and its callback has run. -/
def drainJob (env : DrainEnv) (i : Nat) (jobs : List Job) (w : World) :
    List Job × Result World :=
  match completeAll (env.exitsBefore i) jobs w with
  | (jobs1, .panic w1) => (jobs1, .panic w1)
  | (jobs1, .ok w1) =>
    match jobs1.get? i with
    | none => (jobs1, .ok w1)
    | some j =>
      if j.IsRunning then
        complete ⟨i, env.waited i⟩ jobs1 ((w1.printf (.logWaiting j.Name)).printf (.wait j.Name))
      else (jobs1, .ok w1)

/-- Lines 194-199: the visits of n jobs from position i on. -/
def drainFrom (env : DrainEnv) : Nat → Nat → List Job → World → List Job × Result World
  | 0, _, jobs, w => (jobs, .ok w)
  | n + 1, i, jobs, w =>
    match drainJob env i jobs w with
    | (jobs1, .ok w1) => drainFrom env n (i + 1) jobs1 w1
    | (jobs1, .panic w1) => (jobs1, .panic w1)

/-- Lines 194-199: the drain loop over the table. -/
def drain (env : DrainEnv) (jobs : List Job) (w : World) : List Job × Result World :=
  drainFrom env jobs.length 0 jobs w

/-- Lines 124-131: the metrics of one job are created. -/
def registerJob (w : World) (j : Job) : World :=
  { w with
    overdueCounter := Function.update w.overdueCounter j.Name (some 0)
    failureCounter := Function.update w.failureCounter j.Name (some 0)
    successCounter := Function.update w.successCounter j.Name (some 0)
    durationGauge := Function.update w.durationGauge j.Name (some none)
    maxrssBytesGauge := Function.update w.maxrssBytesGauge j.Name (some none)
    utimeGauge := Function.update w.utimeGauge j.Name (some none)
    stimeGauge := Function.update w.stimeGauge j.Name (some none)
    runningGauge := Function.update w.runningGauge j.Name (some none) }

/-- Lines 122-152: the state in which main enters the scheduler loop. -/
def startState (jobs : List Job) (now : Time) : State :=
  let w := (jobs.foldl registerJob World.init).printf (.logScheduling jobs.length)
  let delay := delayTillNextCheck now
  { jobs := jobs, w := w, prevCheck := (now.Add delay).Add (-60 * Second) }

/-- How a run of main ends: still in the loop when the ticks are used up,
returned after the drain, or in a panic. -/
inductive Run where
  | looping (s : State)
  | returned (s : State)
  | crashed (s : State)

/-- State carried by a run. -/
def Run.state : Run → State
  | .looping s => s
  | .returned s => s
  | .crashed s => s

/-- Lines 194-199 after the loop was left in state s. -/
def shutdown (env : DrainEnv) (s : State) : Run :=
  match drain env s.jobs s.w with
  | (jobs1, .ok w1) => .returned { jobs := jobs1, w := w1, prevCheck := s.prevCheck }
  | (jobs1, .panic w1) => .crashed { jobs := jobs1, w := w1, prevCheck := s.prevCheck }

/-- Lines 154-199 from state s: the loop, then the drain. -/
def runFrom (ticks : List Tick) (env : DrainEnv) (s : State) : Run :=
  match scheduler ticks s with
  | .next s1 => .looping s1
  | .leave s1 => shutdown env s1
  | .crash s1 => .crashed s1

/-- The live path of main after the table is parsed (lines 122-199): now0 is
the reading of time.Now() at line 150. -/
def main (jobs : List Job) (now0 : Time) (ticks : List Tick) (env : DrainEnv) : Run :=
  runFrom ticks env (startState jobs now0)

/-! ## The schedule preview (main.go, lines 81-98) -/

/-- Lines 88-96: the preview loop, for at most the given number of rounds. A
printed line is kept as the simulated instant and the job name. -/
def printLoop (jobs : List Job) : Nat → Time → Time → List (Time × String) →
    List (Time × String)
  | 0, _, _, out => out
  | n + 1, stop, simulatedTime, out =>
    if stop.After simulatedTime then
      let simulatedTime1 := simulatedTime.Add (delayTillNextCheck simulatedTime)
      printLoop jobs n stop simulatedTime1
        (out ++ (jobs.filter (fun j => j.ShouldRunAt simulatedTime1)).map
          (fun j => (simulatedTime1, j.Name)))
    else out

/-- Number of rounds that the preview loop cannot exceed: each round advances
the simulated time by more than 30 s. -/
def printRounds (duration : Duration) : Nat := (duration / (30 * Second)).toNat + 1

/-- The function printScheduleAndExit, given the flag value and the reading
of time.Now() at line 86: the lines printed. -/
def printScheduleAndExit (printScheduleFor : Duration) (now : Time) (jobs : List Job) :
    List (Time × String) :=
  let duration := if printScheduleFor ≠ 0 then printScheduleFor else 24 * Hour
  let simulatedTime := now
  let stop := simulatedTime.Add duration
  printLoop jobs (printRounds duration) stop simulatedTime []

/-- Whether the run ended in a panic. -/
def Run.isCrashed : Run → Bool
  | .crashed _ => true
  | _ => false

/-! ## Inputs used to exercise the definitions -/

/-- A table of two jobs: hourly matches minute 1 of every hour, always
matches every minute. -/
def sampleJobs : List Job :=
  [Job.fresh "hourly" (fun t => t.minuteIndex % 60 == 1), Job.fresh "always" (fun _ => true)]

/-- A reading of the clock 10 s into minute 0 of the epoch, with a monotonic
reading of 500 s. -/
def sampleNow : Time := { wall := 10 * Second, mono := some (500 * Second) }

/-- A world in which the metrics of the sample jobs are registered. -/
def sampleWorld : World := (startState sampleJobs sampleNow).w

/-- Completion data of a command that could not be launched: no process
state, and an error that is not an exit error. -/
def notLaunched : ExitData := { duration := 1000000, cmd := ⟨none⟩, err := some .other }

/-- Completion data of a command that ran for 2 s and exited with status 0. -/
def exitedZero : ExitData :=
  { duration := 2 * Second,
    cmd := ⟨some ⟨.rusage ⟨2048, ⟨0, 1500⟩, ⟨0, 700⟩⟩⟩⟩,
    err := none }

/-- A drain in which no callback runs on its own and every awaited process
exits with status 0. -/
def quietDrain : DrainEnv := { exitsBefore := fun _ => [], waited := fun _ => exitedZero }

/-- A tick whose clock reading lies three minutes after sampleNow on both
clocks. -/
def lateTick : Tick :=
  { now := { wall := 200 * Second, mono := some (690 * Second) }, exits := [], ev := .timer }

/-- A reading at the top of minute 0 of the epoch. -/
def minuteTop : Time := { wall := 0, mono := some (500 * Second) }

/-- A reading at 01:00:30 of the epoch day. -/
def halfPastOne : Time := { wall := 3630 * Second, mono := some (1000 * Second) }

/-- The tick after the one that read halfPastOne, when the wait lasted the computed 60 s on
the monotonic clock while the wall clock was set back to 00:01:10. -/
def setBackTick : Tick :=
  { now := { wall := 70 * Second, mono := some (1060 * Second) }, exits := [], ev := .timer }

/-- The tick after the one that read halfPastOne, when the wait lasted the computed 60 s on
the monotonic clock while the wall clock was set forward to 01:11:50. -/
def setForwardTick : Tick :=
  { now := { wall := 4310 * Second, mono := some (1060 * Second) }, exits := [], ev := .timer }

/-- The tick whose clock reading is the given one, with no callback and the
timer firing. -/
def plainTick (now : Time) : Tick := { now := now, exits := [], ev := .timer }

/-- The state of main on the sample table after its first iteration, when
line 150 and line 156 both read the given instant. -/
def afterFirstTick (now : Time) : State :=
  (iteration (plainTick now) (startState sampleJobs now)).state

/-- The tick in which the loop reads the clock 80 s after sampleNow and the
shutdown signal ends the tick-wait. -/
def shutdownTick : Tick := { now := sampleNow.Add (80 * Second), exits := [], ev := .done }

/-- The reading of time.Now() in the iteration of the given index (from 0)
under an ideal clock: the loop starts at the given instant and every tick-wait
lasts exactly the computed delay. -/
def idealReading (start : Time) : Nat → Time
  | 0 => start
  | k + 1 => (idealReading start k).Add (delayTillNextCheck (idealReading start k))

/-- The first n ticks of the live loop under an ideal clock, with no callback
and no shutdown signal. -/
def idealTicks (start : Time) (n : Nat) : List Tick :=
  (List.range n).map (fun k => plainTick (idealReading start k))

/-- The jobs that the dispatch found due, in log order: those started and
those counted overdue. -/
def dispatchedOf : List Event → List String
  | [] => []
  | .start k :: es => k :: dispatchedOf es
  | .logOverdue k :: es => k :: dispatchedOf es
  | _ :: es => dispatchedOf es

/-! ## Predicates used in the statements -/

/-- The eight maps of per-job metrics. -/
inductive Metric where
  | overdue | failure | success | duration | maxrss | utime | stime | running
deriving DecidableEq, Repr

/-- The world w1 differs from w only in the metrics m of names k with P m k,
has the same skew counters and the same registered names. -/
structure Frame (P : Metric → String → Prop) (w w1 : World) : Prop where
  fwd : w1.forwardTimeSkips = w.forwardTimeSkips
  bwd : w1.backwardTimeSkips = w.backwardTimeSkips
  overdue : ∀ k, ¬ P .overdue k → w1.overdueCounter k = w.overdueCounter k
  failure : ∀ k, ¬ P .failure k → w1.failureCounter k = w.failureCounter k
  success : ∀ k, ¬ P .success k → w1.successCounter k = w.successCounter k
  duration : ∀ k, ¬ P .duration k → w1.durationGauge k = w.durationGauge k
  maxrss : ∀ k, ¬ P .maxrss k → w1.maxrssBytesGauge k = w.maxrssBytesGauge k
  utime : ∀ k, ¬ P .utime k → w1.utimeGauge k = w.utimeGauge k
  stime : ∀ k, ¬ P .stime k → w1.stimeGauge k = w.stimeGauge k
  running : ∀ k, ¬ P .running k → w1.runningGauge k = w.runningGauge k
  regOverdue : ∀ k, (w1.overdueCounter k).isSome = (w.overdueCounter k).isSome
  regFailure : ∀ k, (w1.failureCounter k).isSome = (w.failureCounter k).isSome
  regSuccess : ∀ k, (w1.successCounter k).isSome = (w.successCounter k).isSome
  regDuration : ∀ k, (w1.durationGauge k).isSome = (w.durationGauge k).isSome
  regMaxrss : ∀ k, (w1.maxrssBytesGauge k).isSome = (w.maxrssBytesGauge k).isSome
  regUtime : ∀ k, (w1.utimeGauge k).isSome = (w.utimeGauge k).isSome
  regStime : ∀ k, (w1.stimeGauge k).isSome = (w.stimeGauge k).isSome
  regRunning : ∀ k, (w1.runningGauge k).isSome = (w.runningGauge k).isSome

instance (w : World) (k : String) : Decidable (w.Registered k) := by
  unfold World.Registered
  infer_instance

/-- Between w and w1 there was no call of Start on the job named k, and every
counter and gauge of k kept its value. -/
structure SameAt (k : String) (w w1 : World) : Prop where
  starts : w1.log.count (.start k) = w.log.count (.start k)
  overdue : w1.overdueCounter k = w.overdueCounter k
  failure : w1.failureCounter k = w.failureCounter k
  success : w1.successCounter k = w.successCounter k
  duration : w1.durationGauge k = w.durationGauge k
  maxrss : w1.maxrssBytesGauge k = w.maxrssBytesGauge k
  utime : w1.utimeGauge k = w.utimeGauge k
  stime : w1.stimeGauge k = w.stimeGauge k
  running : w1.runningGauge k = w.runningGauge k

/-- What the dispatch step does for job j between the worlds w and w1: due
and running, no call of Start and one more overdue; due and not running, one
call of Start, the is-running gauge at 1 and the overdue counter as before;
not due, nothing. -/
def DispatchEffect (now : Time) (j : Job) (w w1 : World) : Prop :=
  (j.ShouldRunAt now = true → j.IsRunning = true →
    w1.log.count (.start j.Name) = w.log.count (.start j.Name) ∧
    ∃ n, w.overdueCounter j.Name = some n ∧ w1.overdueCounter j.Name = some (n + 1)) ∧
  (j.ShouldRunAt now = true → j.IsRunning = false →
    w1.log.count (.start j.Name) = w.log.count (.start j.Name) + 1 ∧
    w1.runningGauge j.Name = some (some (.num 1)) ∧
    w1.overdueCounter j.Name = w.overdueCounter j.Name) ∧
  (j.ShouldRunAt now = false → SameAt j.Name w w1)

/-- No job has more than one process in flight, and a job that is not marked
running has none. -/
def OneInFlight (jobs : List Job) : Prop :=
  ∀ j ∈ jobs, j.inFlight ≤ 1 ∧ (j.running = false → j.inFlight = 0)

/-- The log line of a completion callback. -/
def Event.isCallback : Event → Bool
  | .logFinished _ _ _ => true
  | _ => false

/-- The log lines of the skew check. -/
def Event.isSkew : Event → Bool
  | .logForwardJump => true
  | .logBackwardJump => true
  | _ => false

/-- What remains possible once the loop is left: the calls of Wait with their
log lines, and the log lines of completion callbacks. -/
def Event.isDrain : Event → Bool
  | .logFinished _ _ _ => true
  | .logWaiting _ => true
  | .wait _ => true
  | _ => false

/-- The job names of the calls of Wait in a log, in order. -/
def waitsOf : List Event → List String
  | [] => []
  | .wait k :: es => k :: waitsOf es
  | _ :: es => waitsOf es

/-- The log of w1 is the log of w followed by events that all satisfy A. -/
def LogExt (A : Event → Bool) (w w1 : World) : Prop :=
  ∃ evs, w1.log = w.log ++ evs ∧ ∀ e ∈ evs, A e = true

/-- The table jobs1 has the jobs of jobs0 at the same positions, with the
same names, and none of them running that was not running in jobs0. -/
def Shrunk (jobs0 jobs1 : List Job) : Prop :=
  jobs1.length = jobs0.length ∧
  ∀ i j1, jobs1.get? i = some j1 →
    ∃ j0, jobs0.get? i = some j0 ∧ j1.Name = j0.Name ∧ (j1.running = true → j0.running = true)

/-- The two instants were derived from one reading by Add: both carry a
monotonic reading or neither does, and the two clocks show the same
distance between them. -/
def Time.sameBase (stop sim : Time) : Prop :=
  match stop.mono, sim.mono with
  | some a, some b => a - b = stop.wall - sim.wall
  | none, none => True
  | _, _ => False

/-! ## Theorems -/

/-! ### What the metric operations leave alone -/

theorem Frame.refl (P : Metric → String → Prop) (w : World) : Frame P w w := by
  constructor <;> intros <;> rfl

theorem Frame.trans {P : Metric → String → Prop} {w w1 w2 : World} (h1 : Frame P w w1)
    (h2 : Frame P w1 w2) : Frame P w w2 := by
  constructor
  · rw [h2.fwd, h1.fwd]
  · rw [h2.bwd, h1.bwd]
  · intro k hk; rw [h2.overdue k hk, h1.overdue k hk]
  · intro k hk; rw [h2.failure k hk, h1.failure k hk]
  · intro k hk; rw [h2.success k hk, h1.success k hk]
  · intro k hk; rw [h2.duration k hk, h1.duration k hk]
  · intro k hk; rw [h2.maxrss k hk, h1.maxrss k hk]
  · intro k hk; rw [h2.utime k hk, h1.utime k hk]
  · intro k hk; rw [h2.stime k hk, h1.stime k hk]
  · intro k hk; rw [h2.running k hk, h1.running k hk]
  · intro k; rw [h2.regOverdue k, h1.regOverdue k]
  · intro k; rw [h2.regFailure k, h1.regFailure k]
  · intro k; rw [h2.regSuccess k, h1.regSuccess k]
  · intro k; rw [h2.regDuration k, h1.regDuration k]
  · intro k; rw [h2.regMaxrss k, h1.regMaxrss k]
  · intro k; rw [h2.regUtime k, h1.regUtime k]
  · intro k; rw [h2.regStime k, h1.regStime k]
  · intro k; rw [h2.regRunning k, h1.regRunning k]

theorem Frame.mono {P Q : Metric → String → Prop} {w w1 : World} (h : Frame P w w1)
    (hPQ : ∀ m k, P m k → Q m k) : Frame Q w w1 := by
  constructor
  · exact h.fwd
  · exact h.bwd
  · exact fun k hk => h.overdue k (fun hp => hk (hPQ _ k hp))
  · exact fun k hk => h.failure k (fun hp => hk (hPQ _ k hp))
  · exact fun k hk => h.success k (fun hp => hk (hPQ _ k hp))
  · exact fun k hk => h.duration k (fun hp => hk (hPQ _ k hp))
  · exact fun k hk => h.maxrss k (fun hp => hk (hPQ _ k hp))
  · exact fun k hk => h.utime k (fun hp => hk (hPQ _ k hp))
  · exact fun k hk => h.stime k (fun hp => hk (hPQ _ k hp))
  · exact fun k hk => h.running k (fun hp => hk (hPQ _ k hp))
  · exact h.regOverdue
  · exact h.regFailure
  · exact h.regSuccess
  · exact h.regDuration
  · exact h.regMaxrss
  · exact h.regUtime
  · exact h.regStime
  · exact h.regRunning

theorem Frame.registered {P : Metric → String → Prop} {w w1 : World} (h : Frame P w w1) (k : String)
    (hr : w.Registered k) : w1.Registered k := by
  have e1 := h.regOverdue k
  have e2 := h.regFailure k
  have e3 := h.regSuccess k
  have e4 := h.regDuration k
  have e5 := h.regMaxrss k
  have e6 := h.regUtime k
  have e7 := h.regStime k
  have e8 := h.regRunning k
  unfold World.Registered at hr ⊢
  simp only [ne_eq, ← Option.isSome_iff_ne_none] at hr ⊢
  rw [e1, e2, e3, e4, e5, e6, e7, e8]
  exact hr

theorem isSome_update_some {α : Type} (m : String → Option α) (k : String) (v : α)
    (h : (m k).isSome = true) (x : String) :
    (Function.update m k (some v) x).isSome = (m x).isSome := by
  by_cases hx : x = k
  · subst hx; simp [h]
  · simp [Function.update_noteq hx]

theorem frame_printf (P : Metric → String → Prop) (w : World) (e : Event) : Frame P w (w.printf e) := by
  constructor <;> intros <;> rfl

theorem frame_incOverdue (k : String) (w : World) :
    Frame (fun m x => m = Metric.overdue ∧ x = k) w (World.incOverdue k w).state := by
  unfold World.incOverdue Counters.Inc
  cases h : w.overdueCounter k with
  | none => exact Frame.refl _ _
  | some n =>
    constructor <;> intros <;>
      first
        | rfl
        | (rename_i x hx
           have hxk : x ≠ k := fun e => hx ⟨rfl, e⟩
           simp only [Result.state]
           exact Function.update_noteq hxk _ _)
        | (simp only [Result.state]; exact isSome_update_some _ _ _ (by simp [h]) _)

theorem frame_incFailure (k : String) (w : World) :
    Frame (fun m x => m = Metric.failure ∧ x = k) w (World.incFailure k w).state := by
  unfold World.incFailure Counters.Inc
  cases h : w.failureCounter k with
  | none => exact Frame.refl _ _
  | some n =>
    constructor <;> intros <;>
      first
        | rfl
        | (rename_i x hx
           have hxk : x ≠ k := fun e => hx ⟨rfl, e⟩
           simp only [Result.state]
           exact Function.update_noteq hxk _ _)
        | (simp only [Result.state]; exact isSome_update_some _ _ _ (by simp [h]) _)

theorem frame_incSuccess (k : String) (w : World) :
    Frame (fun m x => m = Metric.success ∧ x = k) w (World.incSuccess k w).state := by
  unfold World.incSuccess Counters.Inc
  cases h : w.successCounter k with
  | none => exact Frame.refl _ _
  | some n =>
    constructor <;> intros <;>
      first
        | rfl
        | (rename_i x hx
           have hxk : x ≠ k := fun e => hx ⟨rfl, e⟩
           simp only [Result.state]
           exact Function.update_noteq hxk _ _)
        | (simp only [Result.state]; exact isSome_update_some _ _ _ (by simp [h]) _)

theorem frame_setDuration (k : String) (v : GaugeValue) (w : World) :
    Frame (fun m x => m = Metric.duration ∧ x = k) w (World.setDuration k v w).state := by
  unfold World.setDuration Gauges.Set
  cases h : w.durationGauge k with
  | none => exact Frame.refl _ _
  | some n =>
    constructor <;> intros <;>
      first
        | rfl
        | (rename_i x hx
           have hxk : x ≠ k := fun e => hx ⟨rfl, e⟩
           simp only [Result.state]
           exact Function.update_noteq hxk _ _)
        | (simp only [Result.state]; exact isSome_update_some _ _ _ (by simp [h]) _)

theorem frame_setMaxrssBytes (k : String) (v : GaugeValue) (w : World) :
    Frame (fun m x => m = Metric.maxrss ∧ x = k) w (World.setMaxrssBytes k v w).state := by
  unfold World.setMaxrssBytes Gauges.Set
  cases h : w.maxrssBytesGauge k with
  | none => exact Frame.refl _ _
  | some n =>
    constructor <;> intros <;>
      first
        | rfl
        | (rename_i x hx
           have hxk : x ≠ k := fun e => hx ⟨rfl, e⟩
           simp only [Result.state]
           exact Function.update_noteq hxk _ _)
        | (simp only [Result.state]; exact isSome_update_some _ _ _ (by simp [h]) _)

theorem frame_setUtime (k : String) (v : GaugeValue) (w : World) :
    Frame (fun m x => m = Metric.utime ∧ x = k) w (World.setUtime k v w).state := by
  unfold World.setUtime Gauges.Set
  cases h : w.utimeGauge k with
  | none => exact Frame.refl _ _
  | some n =>
    constructor <;> intros <;>
      first
        | rfl
        | (rename_i x hx
           have hxk : x ≠ k := fun e => hx ⟨rfl, e⟩
           simp only [Result.state]
           exact Function.update_noteq hxk _ _)
        | (simp only [Result.state]; exact isSome_update_some _ _ _ (by simp [h]) _)

theorem frame_setStime (k : String) (v : GaugeValue) (w : World) :
    Frame (fun m x => m = Metric.stime ∧ x = k) w (World.setStime k v w).state := by
  unfold World.setStime Gauges.Set
  cases h : w.stimeGauge k with
  | none => exact Frame.refl _ _
  | some n =>
    constructor <;> intros <;>
      first
        | rfl
        | (rename_i x hx
           have hxk : x ≠ k := fun e => hx ⟨rfl, e⟩
           simp only [Result.state]
           exact Function.update_noteq hxk _ _)
        | (simp only [Result.state]; exact isSome_update_some _ _ _ (by simp [h]) _)

theorem frame_setRunning (k : String) (v : GaugeValue) (w : World) :
    Frame (fun m x => m = Metric.running ∧ x = k) w (World.setRunning k v w).state := by
  unfold World.setRunning Gauges.Set
  cases h : w.runningGauge k with
  | none => exact Frame.refl _ _
  | some n =>
    constructor <;> intros <;>
      first
        | rfl
        | (rename_i x hx
           have hxk : x ≠ k := fun e => hx ⟨rfl, e⟩
           simp only [Result.state]
           exact Function.update_noteq hxk _ _)
        | (simp only [Result.state]; exact isSome_update_some _ _ _ (by simp [h]) _)

theorem frame_andThen {P : Metric → String → Prop} {w : World} {r : Result World}
    {f : World → Result World} (h1 : Frame P w r.state)
    (h2 : ∀ w1, Frame P w1 (f w1).state) : Frame P w (r.andThen f).state := by
  cases r with
  | ok s => exact h1.trans (h2 s)
  | panic s => exact h1

/-! ### The log under the metric operations -/

theorem log_incOverdue (k : String) (w : World) : (World.incOverdue k w).state.log = w.log := by
  unfold World.incOverdue; cases w.overdueCounter.Inc k <;> rfl

theorem log_incFailure (k : String) (w : World) : (World.incFailure k w).state.log = w.log := by
  unfold World.incFailure; cases w.failureCounter.Inc k <;> rfl

theorem log_incSuccess (k : String) (w : World) : (World.incSuccess k w).state.log = w.log := by
  unfold World.incSuccess; cases w.successCounter.Inc k <;> rfl

theorem log_setDuration (k : String) (v : GaugeValue) (w : World) :
    (World.setDuration k v w).state.log = w.log := by
  unfold World.setDuration; cases w.durationGauge.Set k v <;> rfl

theorem log_setMaxrssBytes (k : String) (v : GaugeValue) (w : World) :
    (World.setMaxrssBytes k v w).state.log = w.log := by
  unfold World.setMaxrssBytes; cases w.maxrssBytesGauge.Set k v <;> rfl

theorem log_setUtime (k : String) (v : GaugeValue) (w : World) :
    (World.setUtime k v w).state.log = w.log := by
  unfold World.setUtime; cases w.utimeGauge.Set k v <;> rfl

theorem log_setStime (k : String) (v : GaugeValue) (w : World) :
    (World.setStime k v w).state.log = w.log := by
  unfold World.setStime; cases w.stimeGauge.Set k v <;> rfl

theorem log_setRunning (k : String) (v : GaugeValue) (w : World) :
    (World.setRunning k v w).state.log = w.log := by
  unfold World.setRunning; cases w.runningGauge.Set k v <;> rfl

theorem log_andThen {L : List Event} {r : Result World} {f : World → Result World}
    (h1 : r.state.log = L) (h2 : ∀ w1, (f w1).state.log = w1.log) :
    (r.andThen f).state.log = L := by
  cases r with
  | ok s => exact (h2 s).trans h1
  | panic s => exact h1

/-! ### The completion callback -/

theorem frame_recordRusage (k : String) (d : Duration) (cmd : Cmd) (w : World) :
    Frame (fun m x => m ≠ Metric.overdue ∧ x = k) w (recordRusage k d cmd w).state := by
  obtain ⟨ps⟩ := cmd
  cases ps with
  | none => exact Frame.refl _ _
  | some ps =>
    obtain ⟨su⟩ := ps
    cases su with
    | other => exact Frame.refl _ _
    | rusage r =>
      simp only [recordRusage]
      refine frame_andThen (frame_andThen (frame_andThen ?_ ?_) ?_) ?_
      · exact (frame_setDuration k _ w).mono (by rintro m x ⟨rfl, rfl⟩; exact ⟨by decide, rfl⟩)
      · exact fun w1 => (frame_setMaxrssBytes k _ w1).mono
          (by rintro m x ⟨rfl, rfl⟩; exact ⟨by decide, rfl⟩)
      · exact fun w1 => (frame_setUtime k _ w1).mono
          (by rintro m x ⟨rfl, rfl⟩; exact ⟨by decide, rfl⟩)
      · exact fun w1 => (frame_setStime k _ w1).mono
          (by rintro m x ⟨rfl, rfl⟩; exact ⟨by decide, rfl⟩)

theorem log_recordRusage (k : String) (d : Duration) (cmd : Cmd) (w : World) :
    (recordRusage k d cmd w).state.log = w.log := by
  obtain ⟨ps⟩ := cmd
  cases ps with
  | none => rfl
  | some ps =>
    obtain ⟨su⟩ := ps
    cases su with
    | other => rfl
    | rusage r =>
      simp only [recordRusage]
      exact log_andThen (log_andThen (log_andThen (log_setDuration k _ w)
        (log_setMaxrssBytes k _)) (log_setUtime k _)) (log_setStime k _)

/-- The callback changes only the metrics of its job, never an overdue
counter, a skew counter or a registration. -/
theorem frame_onJobExit (k : String) (d : Duration) (cmd : Cmd) (err : Option GoError)
    (w : World) :
    Frame (fun m x => m ≠ Metric.overdue ∧ x = k) w (onJobExit k d cmd err w).state := by
  unfold onJobExit
  refine frame_andThen (frame_andThen (frame_andThen ?_ ?_) ?_) ?_
  · exact (frame_printf _ w _).trans ((frame_setRunning k _ _).mono
      (by rintro m x ⟨rfl, rfl⟩; exact ⟨by decide, rfl⟩))
  · intro w1
    split
    · exact (frame_incSuccess k w1).mono (by rintro m x ⟨rfl, rfl⟩; exact ⟨by decide, rfl⟩)
    · exact (frame_incFailure k w1).mono (by rintro m x ⟨rfl, rfl⟩; exact ⟨by decide, rfl⟩)
  · exact fun w1 => (frame_setDuration k _ w1).mono
      (by rintro m x ⟨rfl, rfl⟩; exact ⟨by decide, rfl⟩)
  · exact fun w1 => frame_recordRusage k d cmd w1

/-- The callback writes exactly one log line, with the decoded status. -/
theorem log_onJobExit (k : String) (d : Duration) (cmd : Cmd) (err : Option GoError)
    (w : World) :
    (onJobExit k d cmd err w).state.log = w.log ++ [.logFinished k d (decodeExitStatus err)] := by
  unfold onJobExit
  refine log_andThen (log_andThen (log_andThen ?_ ?_) ?_) ?_
  · exact log_setRunning k _ _
  · intro w1
    split
    · exact log_incSuccess k w1
    · exact log_incFailure k w1
  · exact fun w1 => log_setDuration k _ w1
  · exact fun w1 => log_recordRusage k d cmd w1

/-- A command without process state makes the callback panic, whatever the
job, the error and the metrics. -/
theorem onJobExit_nil_processState (k : String) (d : Duration) (err : Option GoError)
    (w : World) : (onJobExit k d ⟨none⟩ err w).panicked = true := by
  unfold onJobExit
  simp only
  generalize (World.setRunning k (GaugeValue.num 0) _) = r1
  cases r1 with
  | panic s => rfl
  | ok s1 =>
    simp only [Result.andThen]
    generalize (if decodeExitStatus err = 0 then World.incSuccess k s1
      else World.incFailure k s1) = r2
    cases r2 with
    | panic s => rfl
    | ok s2 =>
      simp only [Result.andThen]
      generalize (World.setDuration k (GaugeValue.seconds d) s2) = r3
      cases r3 with
      | panic s => rfl
      | ok s3 => rfl

theorem registered_values {w : World} {k : String} (h : w.Registered k) :
    ∃ o f s d m u t r, w.overdueCounter k = some o ∧ w.failureCounter k = some f ∧
      w.successCounter k = some s ∧ w.durationGauge k = some d ∧
      w.maxrssBytesGauge k = some m ∧ w.utimeGauge k = some u ∧ w.stimeGauge k = some t ∧
      w.runningGauge k = some r := by
  obtain ⟨h1, h2, h3, h4, h5, h6, h7, h8⟩ := h
  obtain ⟨o, ho⟩ := Option.ne_none_iff_exists'.mp h1
  obtain ⟨f, hf⟩ := Option.ne_none_iff_exists'.mp h2
  obtain ⟨s, hs⟩ := Option.ne_none_iff_exists'.mp h3
  obtain ⟨d, hd⟩ := Option.ne_none_iff_exists'.mp h4
  obtain ⟨m, hm⟩ := Option.ne_none_iff_exists'.mp h5
  obtain ⟨u, hu⟩ := Option.ne_none_iff_exists'.mp h6
  obtain ⟨t, ht⟩ := Option.ne_none_iff_exists'.mp h7
  obtain ⟨r, hr⟩ := Option.ne_none_iff_exists'.mp h8
  exact ⟨o, f, s, d, m, u, t, r, ho, hf, hs, hd, hm, hu, ht, hr⟩

/-- With registered metrics and a process state, the callback returns, and
the success and failure counters and the two gauges it always sets end as
follows. -/
theorem onJobExit_launched (k : String) (d : Duration) (ps : ProcessState)
    (err : Option GoError) (w : World) (hreg : w.Registered k) :
    ∃ w1 s f, onJobExit k d ⟨some ps⟩ err w = .ok w1 ∧
      w.successCounter k = some s ∧ w.failureCounter k = some f ∧
      (decodeExitStatus err = 0 →
        w1.successCounter k = some (s + 1) ∧ w1.failureCounter k = some f) ∧
      (decodeExitStatus err ≠ 0 →
        w1.failureCounter k = some (f + 1) ∧ w1.successCounter k = some s) ∧
      w1.runningGauge k = some (some (.num 0)) ∧
      w1.durationGauge k = some (some (.seconds d)) := by
  obtain ⟨o, f, s, dg, m, u, t, r, ho, hf, hs, hd, hm, hu, ht, hr⟩ := registered_values hreg
  obtain ⟨su⟩ := ps
  by_cases hst : decodeExitStatus err = 0
  · cases su with
    | other =>
      simp [onJobExit, recordRusage, World.printf, World.setRunning, World.incSuccess,
        World.setDuration, Gauges.Set, Counters.Inc, Result.andThen, hst, hr, hs, hd, hf]
    | rusage ru =>
      simp [onJobExit, recordRusage, World.printf, World.setRunning, World.incSuccess,
        World.setDuration, World.setMaxrssBytes, World.setUtime, World.setStime,
        Gauges.Set, Counters.Inc, Result.andThen, hst, hr, hs, hd, hf, hm, hu, ht]
  · cases su with
    | other =>
      simp [onJobExit, recordRusage, World.printf, World.setRunning, World.incFailure,
        World.setDuration, Gauges.Set, Counters.Inc, Result.andThen, hst, hr, hs, hd, hf]
    | rusage ru =>
      simp [onJobExit, recordRusage, World.printf, World.setRunning, World.incFailure,
        World.setDuration, World.setMaxrssBytes, World.setUtime, World.setStime,
        Gauges.Set, Counters.Inc, Result.andThen, hst, hr, hs, hd, hf, hm, hu, ht]

/-! ### Callbacks, dispatch and drain leave the skew counters alone -/

theorem frame_complete (e : Exit) (jobs : List Job) (w : World) :
    Frame (fun m _ => m ≠ Metric.overdue) w (complete e jobs w).2.state := by
  unfold complete
  cases jobs.get? e.idx with
  | none => exact Frame.refl _ _
  | some j =>
    simp only
    split
    · exact Frame.refl _ _
    · exact (frame_onJobExit j.Name _ _ _ w).mono (fun m x hx => hx.1)

theorem frame_completeAll (es : List Exit) (jobs : List Job) (w : World) :
    Frame (fun m _ => m ≠ Metric.overdue) w (completeAll es jobs w).2.state := by
  induction es generalizing jobs w with
  | nil => exact Frame.refl _ _
  | cons e es ih =>
    have h := frame_complete e jobs w
    unfold completeAll
    cases hc : complete e jobs w with
    | mk jobs1 r =>
      rw [hc] at h
      cases r with
      | ok w1 => exact h.trans (ih jobs1 w1)
      | panic w1 => exact h

theorem frame_dispatchJob (now : Time) (j : Job) (w : World) :
    Frame (fun m x => (m = Metric.overdue ∨ m = Metric.running) ∧ x = j.Name) w
      (dispatchJob now j w).2.state := by
  unfold dispatchJob
  split
  · exact Frame.refl _ _
  · split
    · exact (frame_printf _ w _).trans ((frame_incOverdue j.Name _).mono
        (by rintro m x ⟨rfl, rfl⟩; exact ⟨Or.inl rfl, rfl⟩))
    · have h := (frame_printf (fun m x => (m = Metric.overdue ∨ m = Metric.running) ∧
          x = j.Name) w (.logStarting j.Name)).trans
        ((frame_setRunning j.Name (.num 1) (w.printf (.logStarting j.Name))).mono
          (by rintro m x ⟨rfl, rfl⟩; exact ⟨Or.inr rfl, rfl⟩))
      cases hs : World.setRunning j.Name (.num 1) (w.printf (.logStarting j.Name)) with
      | ok w1 =>
        rw [hs] at h
        exact h.trans (frame_printf _ w1 _)
      | panic w1 =>
        rw [hs] at h
        exact h

theorem frame_dispatch (now : Time) (jobs : List Job) (w : World) :
    Frame (fun m x => (m = Metric.overdue ∨ m = Metric.running) ∧ x ∈ jobs.map Job.Name) w
      (dispatch now jobs w).2.state := by
  induction jobs generalizing w with
  | nil => exact Frame.refl _ _
  | cons j js ih =>
    have h := (frame_dispatchJob now j w).mono
      (Q := fun m x => (m = Metric.overdue ∨ m = Metric.running) ∧
        x ∈ (j :: js).map Job.Name)
      (by rintro m x ⟨hm, rfl⟩; exact ⟨hm, by simp⟩)
    unfold dispatch
    cases hd : dispatchJob now j w with
    | mk j1 r =>
      rw [hd] at h
      cases r with
      | panic w1 => exact h
      | ok w1 =>
        simp only
        exact h.trans ((ih w1).mono (by
          rintro m x ⟨hm, hx⟩
          exact ⟨hm, by simp only [List.map_cons, List.mem_cons]; exact Or.inr hx⟩))

/-- The skew check leaves every per-job metric as it is. -/
theorem skewCheck_maps (p a : Time) (w : World) :
    (skewCheck p a w).overdueCounter = w.overdueCounter ∧
    (skewCheck p a w).failureCounter = w.failureCounter ∧
    (skewCheck p a w).successCounter = w.successCounter ∧
    (skewCheck p a w).durationGauge = w.durationGauge ∧
    (skewCheck p a w).maxrssBytesGauge = w.maxrssBytesGauge ∧
    (skewCheck p a w).utimeGauge = w.utimeGauge ∧
    (skewCheck p a w).stimeGauge = w.stimeGauge ∧
    (skewCheck p a w).runningGauge = w.runningGauge := by
  unfold skewCheck
  split
  · split <;> exact ⟨rfl, rfl, rfl, rfl, rfl, rfl, rfl, rfl⟩
  · exact ⟨rfl, rfl, rfl, rfl, rfl, rfl, rfl, rfl⟩

theorem skewCheck_registered (p a : Time) (w : World) (k : String) (h : w.Registered k) :
    (skewCheck p a w).Registered k := by
  obtain ⟨e1, e2, e3, e4, e5, e6, e7, e8⟩ := skewCheck_maps p a w
  unfold World.Registered
  rw [e1, e2, e3, e4, e5, e6, e7, e8]
  exact h

/-- The skew counters after an iteration are those left by its skew check. -/
theorem iteration_skew (t : Tick) (s : State) :
    (iteration t s).state.w.forwardTimeSkips =
      (skewCheck s.prevCheck ((t.now.Add (delayTillNextCheck t.now)).Add (-60 * Second))
        s.w).forwardTimeSkips ∧
    (iteration t s).state.w.backwardTimeSkips =
      (skewCheck s.prevCheck ((t.now.Add (delayTillNextCheck t.now)).Add (-60 * Second))
        s.w).backwardTimeSkips := by
  have hc := frame_completeAll t.exits s.jobs
    (skewCheck s.prevCheck ((t.now.Add (delayTillNextCheck t.now)).Add (-60 * Second)) s.w)
  unfold iteration
  simp only
  cases hca : completeAll t.exits s.jobs
    (skewCheck s.prevCheck ((t.now.Add (delayTillNextCheck t.now)).Add (-60 * Second)) s.w) with
  | mk jobs1 r =>
    rw [hca] at hc
    cases r with
    | panic w2 => exact ⟨hc.fwd, hc.bwd⟩
    | ok w2 =>
      simp only
      cases t.ev with
      | done => exact ⟨hc.fwd, hc.bwd⟩
      | timer =>
        simp only
        have hd := frame_dispatch t.now jobs1 w2
        cases hdd : dispatch t.now jobs1 w2 with
        | mk jobs2 r2 =>
          rw [hdd] at hd
          cases r2 with
          | ok w3 => exact ⟨hd.fwd.trans hc.fwd, hd.bwd.trans hc.bwd⟩
          | panic w3 => exact ⟨hd.fwd.trans hc.fwd, hd.bwd.trans hc.bwd⟩

/-! ### Dispatch with registered metrics does not panic -/

theorem dispatchJob_ok (now : Time) (j : Job) (w : World) (h : w.Registered j.Name) :
    ∃ j1 w1, dispatchJob now j w = (j1, .ok w1) := by
  obtain ⟨o, f, s, d, m, u, t, r, ho, hf, hs, hd, hm, hu, ht, hr⟩ := registered_values h
  unfold dispatchJob
  split
  · exact ⟨_, _, rfl⟩
  · split
    · simp [World.incOverdue, Counters.Inc, World.printf, ho]
    · simp [World.setRunning, Gauges.Set, World.printf, hr]

theorem dispatch_ok (now : Time) (jobs : List Job) (w : World)
    (h : ∀ j ∈ jobs, w.Registered j.Name) :
    ∃ jobs1 w1, dispatch now jobs w = (jobs1, .ok w1) := by
  induction jobs generalizing w with
  | nil => exact ⟨[], w, rfl⟩
  | cons j js ih =>
    obtain ⟨j1, w1, hj⟩ := dispatchJob_ok now j w (h j (List.mem_cons_self j js))
    have hfr := frame_dispatchJob now j w
    rw [hj] at hfr
    obtain ⟨js1, w2, hjs⟩ := ih w1
      (fun k hk => hfr.registered k.Name (h k (List.mem_cons_of_mem j hk)))
    exact ⟨j1 :: js1, w2, by simp only [dispatch, hj, hjs]⟩

theorem names_modifyJob (f : Job → Job) (hf : ∀ j, (f j).Name = j.Name) (i : Nat)
    (jobs : List Job) : (modifyJob f i jobs).map Job.Name = jobs.map Job.Name := by
  induction jobs generalizing i with
  | nil => cases i <;> rfl
  | cons j js ih =>
    cases i with
    | zero => simp [modifyJob, hf]
    | succ i => simp [modifyJob, ih]

theorem names_complete (e : Exit) (jobs : List Job) (w : World) :
    (complete e jobs w).1.map Job.Name = jobs.map Job.Name := by
  unfold complete
  cases jobs.get? e.idx with
  | none => rfl
  | some j =>
    simp only
    split
    · rfl
    · exact names_modifyJob Job.finish (fun _ => rfl) e.idx jobs

theorem names_completeAll (es : List Exit) (jobs : List Job) (w : World) :
    (completeAll es jobs w).1.map Job.Name = jobs.map Job.Name := by
  induction es generalizing jobs w with
  | nil => rfl
  | cons e es ih =>
    have h := names_complete e jobs w
    unfold completeAll
    cases hc : complete e jobs w with
    | mk jobs1 r =>
      rw [hc] at h
      cases r with
      | ok w1 => exact (ih jobs1 w1).trans h
      | panic w1 => exact h

theorem registered_of_names {jobs jobs1 : List Job} {w : World}
    (hn : jobs1.map Job.Name = jobs.map Job.Name) (h : ∀ j ∈ jobs, w.Registered j.Name) :
    ∀ j ∈ jobs1, w.Registered j.Name := by
  intro j hj
  have hm : j.Name ∈ jobs1.map Job.Name := List.mem_map_of_mem _ hj
  rw [hn] at hm
  obtain ⟨k, hk, hkn⟩ := List.mem_map.mp hm
  rw [← hkn]
  exact h k hk

/-- The skew check in its three cases. -/
theorem skewCheck_cases (p a : Time) (w : World) :
    (a.Unix = p.Unix →
      (skewCheck p a w).forwardTimeSkips = w.forwardTimeSkips ∧
      (skewCheck p a w).backwardTimeSkips = w.backwardTimeSkips) ∧
    (a.Unix ≠ p.Unix → a.After p = true →
      (skewCheck p a w).forwardTimeSkips = w.forwardTimeSkips + 1 ∧
      (skewCheck p a w).backwardTimeSkips = w.backwardTimeSkips) ∧
    (a.Unix ≠ p.Unix → a.After p = false →
      (skewCheck p a w).backwardTimeSkips = w.backwardTimeSkips + 1 ∧
      (skewCheck p a w).forwardTimeSkips = w.forwardTimeSkips) := by
  unfold skewCheck
  refine ⟨fun h => ?_, fun h ha => ?_, fun h ha => ?_⟩
  · simp [h]
  · simp [h, ha, World.printf]
  · simp [h, ha, World.printf]

theorem before_not_after (a p : Time) (h : a.Before p = true) : a.After p = false := by
  unfold Time.Before at h
  unfold Time.After
  split at h <;> simp_all <;> omega

/-! ### Skew reports in terms of wall-clock minutes -/

theorem SameAt.rflAt (k : String) (w : World) : SameAt k w w := by
  constructor <;> rfl

theorem SameAt.transAt {k : String} {w w1 w2 : World} (h1 : SameAt k w w1)
    (h2 : SameAt k w1 w2) : SameAt k w w2 := by
  constructor
  · rw [h2.starts, h1.starts]
  · rw [h2.overdue, h1.overdue]
  · rw [h2.failure, h1.failure]
  · rw [h2.success, h1.success]
  · rw [h2.duration, h1.duration]
  · rw [h2.maxrss, h1.maxrss]
  · rw [h2.utime, h1.utime]
  · rw [h2.stime, h1.stime]
  · rw [h2.running, h1.running]

theorem DispatchEffect.after {now : Time} {j : Job} {w w1 w2 : World}
    (h : DispatchEffect now j w w1) (h2 : SameAt j.Name w1 w2) : DispatchEffect now j w w2 := by
  obtain ⟨a, b, c⟩ := h
  refine ⟨fun hd hr => ?_, fun hd hr => ?_, fun hd => (c hd).transAt h2⟩
  · obtain ⟨hc, n, hn, hn1⟩ := a hd hr
    exact ⟨by rw [h2.starts, hc], n, hn, by rw [h2.overdue, hn1]⟩
  · obtain ⟨hc, hg, ho⟩ := b hd hr
    exact ⟨by rw [h2.starts, hc], by rw [h2.running, hg], by rw [h2.overdue, ho]⟩

theorem DispatchEffect.before {now : Time} {j : Job} {w w1 w2 : World}
    (h1 : SameAt j.Name w w1) (h : DispatchEffect now j w1 w2) : DispatchEffect now j w w2 := by
  obtain ⟨a, b, c⟩ := h
  refine ⟨fun hd hr => ?_, fun hd hr => ?_, fun hd => h1.transAt (c hd)⟩
  · obtain ⟨hc, n, hn, hn1⟩ := a hd hr
    exact ⟨by rw [hc, h1.starts], n, by rw [← h1.overdue, hn], hn1⟩
  · obtain ⟨hc, hg, ho⟩ := b hd hr
    exact ⟨by rw [hc, h1.starts], hg, by rw [ho, h1.overdue]⟩

/-- The body of the dispatch loop does for its own job what the dispatch step
promises. -/
theorem dispatchJob_effect (now : Time) (j j1 : Job) (w w1 : World)
    (h : dispatchJob now j w = (j1, .ok w1)) : DispatchEffect now j w w1 := by
  unfold dispatchJob at h
  refine ⟨fun hd hr => ?_, fun hd hr => ?_, fun hd => ?_⟩
  · simp only [hd, hr, Bool.not_true, Bool.false_eq_true, if_false, if_true] at h
    unfold World.incOverdue Counters.Inc at h
    cases ho : (w.printf (.logOverdue j.Name)).overdueCounter j.Name with
    | none => simp [ho] at h
    | some n =>
      simp only [ho, Prod.mk.injEq, Result.ok.injEq] at h
      obtain ⟨_, h⟩ := h
      subst h
      refine ⟨?_, n, ho, ?_⟩
      · simp [World.printf, List.count_append]
      · simp
  · simp only [hd, hr, Bool.not_true, Bool.false_eq_true, if_false] at h
    unfold World.setRunning Gauges.Set at h
    cases hg : (w.printf (.logStarting j.Name)).runningGauge j.Name with
    | none => simp [hg] at h
    | some g =>
      simp only [hg, Prod.mk.injEq, Result.ok.injEq] at h
      obtain ⟨_, h⟩ := h
      subst h
      refine ⟨?_, ?_, rfl⟩
      · simp [World.printf, List.count_append]
      · simp [World.printf]
  · simp only [hd, Bool.not_false, if_true, Prod.mk.injEq, Result.ok.injEq] at h
    obtain ⟨_, h⟩ := h
    subst h
    exact SameAt.rflAt _ _

/-- The body of the dispatch loop leaves the jobs of other names alone. -/
theorem dispatchJob_sameAt (now : Time) (j : Job) (w : World) (k : String) (hk : k ≠ j.Name) :
    SameAt k w (dispatchJob now j w).2.state := by
  have hfr := frame_dispatchJob now j w
  have hlog : (dispatchJob now j w).2.state.log.count (.start k) = w.log.count (.start k) := by
    have hkj : ¬ (j.Name = k) := fun e => hk e.symm
    unfold dispatchJob
    split
    · rfl
    · split
      · simp only [log_incOverdue]
        simp [World.printf, List.count_append]
      · cases hs : World.setRunning j.Name (.num 1) (w.printf (.logStarting j.Name)) with
        | ok w1 =>
          have hl := log_setRunning j.Name (.num 1) (w.printf (.logStarting j.Name))
          rw [hs] at hl
          simp only [Result.state] at hl
          have h0 : List.count (Event.start k) [Event.start j.Name] = 0 :=
            List.count_eq_zero.mpr (by simp [hk])
          simp [World.printf, List.count_append, hl, Result.state, h0]
        | panic w1 =>
          have hl := log_setRunning j.Name (.num 1) (w.printf (.logStarting j.Name))
          rw [hs] at hl
          simp only [Result.state] at hl
          simp [World.printf, List.count_append, hl, Result.state]
  have hP : ∀ m, ¬ ((m = Metric.overdue ∨ m = Metric.running) ∧ k = j.Name) :=
    fun m h => hk h.2
  exact ⟨hlog, hfr.overdue k (hP _), hfr.failure k (hP _), hfr.success k (hP _),
    hfr.duration k (hP _), hfr.maxrss k (hP _), hfr.utime k (hP _), hfr.stime k (hP _),
    hfr.running k (hP _)⟩

/-- The dispatch loop leaves the jobs that are not in the table alone. -/
theorem dispatch_sameAt (now : Time) (jobs : List Job) (w : World) (k : String)
    (hk : k ∉ jobs.map Job.Name) : SameAt k w (dispatch now jobs w).2.state := by
  induction jobs generalizing w with
  | nil => exact SameAt.rflAt _ _
  | cons j js ih =>
    simp only [List.map_cons, List.mem_cons, not_or] at hk
    have h1 := dispatchJob_sameAt now j w k hk.1
    unfold dispatch
    cases hd : dispatchJob now j w with
    | mk j1 r =>
      rw [hd] at h1
      cases r with
      | panic w1 => exact h1
      | ok w1 => exact h1.transAt (ih w1 hk.2)

/-- The dispatch loop does for every job of a table with distinct names what
the dispatch step promises. -/
theorem dispatch_effect (now : Time) (jobs jobs1 : List Job) (w w1 : World)
    (hnd : (jobs.map Job.Name).Nodup) (h : dispatch now jobs w = (jobs1, .ok w1)) :
    ∀ j ∈ jobs, DispatchEffect now j w w1 := by
  induction jobs generalizing w jobs1 with
  | nil => intro j hj; cases hj
  | cons j js ih =>
    simp only [List.map_cons, List.nodup_cons] at hnd
    unfold dispatch at h
    cases hd : dispatchJob now j w with
    | mk j1 r =>
      rw [hd] at h
      cases r with
      | panic w2 => simp at h
      | ok w2 =>
        simp only at h
        cases hds : dispatch now js w2 with
        | mk js1 r2 =>
          rw [hds] at h
          simp only [Prod.mk.injEq] at h
          obtain ⟨_, hr2⟩ := h
          subst hr2
          intro k hk
          rcases List.mem_cons.mp hk with rfl | hk
          · have hrest := dispatch_sameAt now js w2 k.Name hnd.1
            rw [hds] at hrest
            exact (dispatchJob_effect now k j1 w w2 hd).after hrest
          · have hne : k.Name ≠ j.Name := by
              intro e
              exact hnd.1 (e ▸ List.mem_map_of_mem _ hk)
            have hfirst := dispatchJob_sameAt now j w k.Name hne
            rw [hd] at hfirst
            exact (ih js1 w2 hnd.2 hds k hk).before hfirst

/-! ### At most one process in flight per job -/

theorem mem_modifyJob {f : Job → Job} {i : Nat} {jobs : List Job} {j : Job}
    (h : j ∈ modifyJob f i jobs) : j ∈ jobs ∨ ∃ k ∈ jobs, j = f k := by
  induction jobs generalizing i with
  | nil => cases i <;> simp [modifyJob] at h
  | cons a as ih =>
    cases i with
    | zero =>
      simp only [modifyJob, List.mem_cons] at h
      rcases h with rfl | h
      · exact Or.inr ⟨a, List.mem_cons_self _ _, rfl⟩
      · exact Or.inl (List.mem_cons_of_mem _ h)
    | succ i =>
      simp only [modifyJob, List.mem_cons] at h
      rcases h with rfl | h
      · exact Or.inl (List.mem_cons_self _ _)
      · rcases ih h with h1 | ⟨k, hk, rfl⟩
        · exact Or.inl (List.mem_cons_of_mem _ h1)
        · exact Or.inr ⟨k, List.mem_cons_of_mem _ hk, rfl⟩

theorem oneInFlight_complete (e : Exit) (jobs : List Job) (w : World) (h : OneInFlight jobs) :
    OneInFlight (complete e jobs w).1 := by
  unfold complete
  cases jobs.get? e.idx with
  | none => exact h
  | some j =>
    simp only
    split
    · exact h
    · intro k hk
      rcases mem_modifyJob hk with h1 | ⟨k0, hk0, rfl⟩
      · exact h k h1
      · have := h k0 hk0
        simp only [Job.finish]
        omega

theorem oneInFlight_completeAll (es : List Exit) (jobs : List Job) (w : World)
    (h : OneInFlight jobs) : OneInFlight (completeAll es jobs w).1 := by
  induction es generalizing jobs w with
  | nil => exact h
  | cons e es ih =>
    have h1 := oneInFlight_complete e jobs w h
    unfold completeAll
    cases hc : complete e jobs w with
    | mk jobs1 r =>
      rw [hc] at h1
      cases r with
      | ok w1 => exact ih jobs1 w1 h1
      | panic w1 => exact h1

theorem oneInFlight_dispatchJob (now : Time) (j : Job) (w : World)
    (h : j.inFlight ≤ 1 ∧ (j.running = false → j.inFlight = 0)) :
    (dispatchJob now j w).1.inFlight ≤ 1 ∧
      ((dispatchJob now j w).1.running = false → (dispatchJob now j w).1.inFlight = 0) := by
  unfold dispatchJob
  split
  · exact h
  · split
    · exact h
    · rename_i hrun
      have hr : j.running = false := by
        simpa [Job.IsRunning] using hrun
      split
      · simp only [Job.Start]
        have := h.2 hr
        exact ⟨by omega, by simp⟩
      · exact h

theorem oneInFlight_dispatch (now : Time) (jobs : List Job) (w : World)
    (h : OneInFlight jobs) : OneInFlight (dispatch now jobs w).1 := by
  induction jobs generalizing w with
  | nil => exact h
  | cons j js ih =>
    have hj := oneInFlight_dispatchJob now j w (h j (List.mem_cons_self _ _))
    have hjs : OneInFlight js := fun k hk => h k (List.mem_cons_of_mem _ hk)
    unfold dispatch
    cases hd : dispatchJob now j w with
    | mk j1 r =>
      rw [hd] at hj
      cases r with
      | panic w1 =>
        intro k hk
        rcases List.mem_cons.mp hk with rfl | hk
        · exact hj
        · exact hjs k hk
      | ok w1 =>
        have hrest := ih w1 hjs
        intro k hk
        rcases List.mem_cons.mp hk with rfl | hk
        · exact hj
        · exact hrest k hk

theorem oneInFlight_iteration (t : Tick) (s : State) (h : OneInFlight s.jobs) :
    OneInFlight (iteration t s).state.jobs := by
  have hc := oneInFlight_completeAll t.exits s.jobs
    (skewCheck s.prevCheck ((t.now.Add (delayTillNextCheck t.now)).Add (-60 * Second)) s.w) h
  unfold iteration
  simp only
  cases hca : completeAll t.exits s.jobs
    (skewCheck s.prevCheck ((t.now.Add (delayTillNextCheck t.now)).Add (-60 * Second)) s.w) with
  | mk jobs1 r =>
    rw [hca] at hc
    cases r with
    | panic w2 => exact hc
    | ok w2 =>
      simp only
      cases t.ev with
      | done => exact hc
      | timer =>
        simp only
        have hd := oneInFlight_dispatch t.now jobs1 w2 hc
        cases hdd : dispatch t.now jobs1 w2 with
        | mk jobs2 r2 =>
          rw [hdd] at hd
          cases r2 with
          | ok w3 => exact hd
          | panic w3 => exact hd

theorem oneInFlight_scheduler (ticks : List Tick) (s : State) (h : OneInFlight s.jobs) :
    OneInFlight (scheduler ticks s).state.jobs := by
  induction ticks generalizing s with
  | nil => exact h
  | cons t ts ih =>
    have h1 := oneInFlight_iteration t s h
    unfold scheduler
    cases hi : iteration t s with
    | next s1 => rw [hi] at h1; exact ih s1 h1
    | leave s1 => rw [hi] at h1; exact h1
    | crash s1 => rw [hi] at h1; exact h1

theorem oneInFlight_drainJob (env : DrainEnv) (i : Nat) (jobs : List Job) (w : World)
    (h : OneInFlight jobs) : OneInFlight (drainJob env i jobs w).1 := by
  have hc := oneInFlight_completeAll (env.exitsBefore i) jobs w h
  unfold drainJob
  cases hca : completeAll (env.exitsBefore i) jobs w with
  | mk jobs1 r =>
    rw [hca] at hc
    cases r with
    | panic w1 => exact hc
    | ok w1 =>
      simp only
      cases jobs1.get? i with
      | none => exact hc
      | some j =>
        simp only
        split
        · exact oneInFlight_complete _ _ _ hc
        · exact hc

theorem oneInFlight_drainFrom (env : DrainEnv) (n i : Nat) (jobs : List Job) (w : World)
    (h : OneInFlight jobs) : OneInFlight (drainFrom env n i jobs w).1 := by
  induction n generalizing i jobs w with
  | zero => exact h
  | succ n ih =>
    have h1 := oneInFlight_drainJob env i jobs w h
    unfold drainFrom
    cases hd : drainJob env i jobs w with
    | mk jobs1 r =>
      rw [hd] at h1
      cases r with
      | ok w1 => exact ih (i + 1) jobs1 w1 h1
      | panic w1 => exact h1

theorem oneInFlight_shutdown (env : DrainEnv) (s : State) (h : OneInFlight s.jobs) :
    OneInFlight (shutdown env s).state.jobs := by
  have h1 := oneInFlight_drainFrom env s.jobs.length 0 s.jobs s.w h
  unfold shutdown drain
  cases hd : drainFrom env s.jobs.length 0 s.jobs s.w with
  | mk jobs1 r =>
    rw [hd] at h1
    cases r with
    | ok w1 => exact h1
    | panic w1 => exact h1

/-- Every run of the loop and the drain keeps at most one process in flight
per job. -/
theorem oneInFlight_runFrom (ticks : List Tick) (env : DrainEnv) (s : State)
    (h : OneInFlight s.jobs) : OneInFlight (runFrom ticks env s).state.jobs := by
  have h1 := oneInFlight_scheduler ticks s h
  unfold runFrom
  cases hs : scheduler ticks s with
  | next s1 => rw [hs] at h1; exact h1
  | leave s1 => rw [hs] at h1; exact oneInFlight_shutdown env s1 h1
  | crash s1 => rw [hs] at h1; exact h1

/-! ### The log after the loop is left -/

theorem LogExt.rflExt (A : Event → Bool) (w : World) : LogExt A w w :=
  ⟨[], by simp, by simp⟩

theorem LogExt.transExt {A : Event → Bool} {w w1 w2 : World} (h1 : LogExt A w w1)
    (h2 : LogExt A w1 w2) : LogExt A w w2 := by
  obtain ⟨e1, l1, a1⟩ := h1
  obtain ⟨e2, l2, a2⟩ := h2
  refine ⟨e1 ++ e2, by rw [l2, l1, List.append_assoc], ?_⟩
  intro e he
  rcases List.mem_append.mp he with h | h
  · exact a1 e h
  · exact a2 e h

theorem LogExt.monoExt {A B : Event → Bool} {w w1 : World} (h : LogExt A w w1)
    (hAB : ∀ e, A e = true → B e = true) : LogExt B w w1 := by
  obtain ⟨e1, l1, a1⟩ := h
  exact ⟨e1, l1, fun e he => hAB e (a1 e he)⟩

theorem logExt_of_log_eq {A : Event → Bool} {w w1 : World} (h : w1.log = w.log) :
    LogExt A w w1 :=
  ⟨[], by simp [h], by simp⟩

theorem logExt_printf {A : Event → Bool} (w : World) (e : Event) (h : A e = true) :
    LogExt A w (w.printf e) :=
  ⟨[e], rfl, by simpa using h⟩

theorem logExt_onJobExit (k : String) (d : Duration) (cmd : Cmd) (err : Option GoError)
    (w : World) : LogExt Event.isCallback w (onJobExit k d cmd err w).state :=
  ⟨[.logFinished k d (decodeExitStatus err)], log_onJobExit k d cmd err w, by simp [Event.isCallback]⟩

theorem logExt_complete (e : Exit) (jobs : List Job) (w : World) :
    LogExt Event.isCallback w (complete e jobs w).2.state := by
  unfold complete
  cases jobs.get? e.idx with
  | none => exact LogExt.rflExt _ _
  | some j =>
    simp only
    split
    · exact LogExt.rflExt _ _
    · exact logExt_onJobExit _ _ _ _ _

theorem logExt_completeAll (es : List Exit) (jobs : List Job) (w : World) :
    LogExt Event.isCallback w (completeAll es jobs w).2.state := by
  induction es generalizing jobs w with
  | nil => exact LogExt.rflExt _ _
  | cons e es ih =>
    have h := logExt_complete e jobs w
    unfold completeAll
    cases hc : complete e jobs w with
    | mk jobs1 r =>
      rw [hc] at h
      cases r with
      | ok w1 => exact h.transExt (ih jobs1 w1)
      | panic w1 => exact h

theorem logExt_skewCheck (p a : Time) (w : World) :
    LogExt Event.isSkew w (skewCheck p a w) := by
  unfold skewCheck
  split
  · split
    · exact ⟨[.logForwardJump], rfl, by simp [Event.isSkew]⟩
    · exact ⟨[.logBackwardJump], rfl, by simp [Event.isSkew]⟩
  · exact LogExt.rflExt _ _

theorem waitsOf_append (l1 l2 : List Event) : waitsOf (l1 ++ l2) = waitsOf l1 ++ waitsOf l2 := by
  induction l1 with
  | nil => rfl
  | cons e es ih => cases e <;> simp [waitsOf, ih]

theorem waitsOf_of_no_wait (evs : List Event) (h : ∀ e ∈ evs, ∀ k, e ≠ .wait k) :
    waitsOf evs = [] := by
  induction evs with
  | nil => rfl
  | cons e es ih =>
    have he := h e (List.mem_cons_self _ _)
    have hes := ih (fun x hx => h x (List.mem_cons_of_mem _ hx))
    cases e <;> simp_all [waitsOf]

theorem count_start_of_no_start (k : String) (evs : List Event)
    (h : ∀ e ∈ evs, e ≠ .start k) : evs.count (.start k) = 0 :=
  List.count_eq_zero.mpr (fun hm => h _ hm rfl)

/-- Events of callbacks contain no call of Wait. -/
theorem waitsOf_logExt_callback {w w1 : World} (h : LogExt Event.isCallback w w1) :
    waitsOf w1.log = waitsOf w.log := by
  obtain ⟨evs, hl, ha⟩ := h
  rw [hl, waitsOf_append, waitsOf_of_no_wait evs, List.append_nil]
  intro e he k hk
  have := ha e he
  rw [hk] at this
  simp [Event.isCallback] at this

/-- A stretch of events without dispatch events adds no call of Start. -/
theorem count_start_logExt {A : Event → Bool} (hA : ∀ k, A (.start k) = false) {w w1 : World}
    (h : LogExt A w w1) (k : String) : w1.log.count (.start k) = w.log.count (.start k) := by
  obtain ⟨evs, hl, ha⟩ := h
  rw [hl, List.count_append, count_start_of_no_start k evs, Nat.add_zero]
  intro e he hk
  have := ha e he
  rw [hk, hA k] at this
  cases this

/-! ### Jobs during callbacks and drain -/

theorem length_modifyJob (f : Job → Job) (i : Nat) (jobs : List Job) :
    (modifyJob f i jobs).length = jobs.length := by
  induction jobs generalizing i with
  | nil => cases i <;> rfl
  | cons j js ih => cases i <;> simp [modifyJob, ih]

theorem get?_modifyJob (f : Job → Job) (i k : Nat) (jobs : List Job) :
    (modifyJob f i jobs).get? k = if k = i then (jobs.get? k).map f else jobs.get? k := by
  induction jobs generalizing i k with
  | nil => cases i <;> simp [modifyJob]
  | cons j js ih =>
    cases i with
    | zero => cases k <;> simp [modifyJob]
    | succ i =>
      cases k with
      | zero => simp [modifyJob]
      | succ k => simpa [modifyJob] using ih i k

theorem Shrunk.rflJobs (jobs : List Job) : Shrunk jobs jobs :=
  ⟨rfl, fun _ j1 h => ⟨j1, h, rfl, id⟩⟩

theorem Shrunk.transJobs {a b c : List Job} (h1 : Shrunk a b) (h2 : Shrunk b c) : Shrunk a c := by
  refine ⟨h2.1.trans h1.1, fun i j2 hj2 => ?_⟩
  obtain ⟨j1, hj1, hn1, hr1⟩ := h2.2 i j2 hj2
  obtain ⟨j0, hj0, hn0, hr0⟩ := h1.2 i j1 hj1
  exact ⟨j0, hj0, hn1.trans hn0, fun h => hr0 (hr1 h)⟩

theorem shrunk_finish (i : Nat) (jobs : List Job) : Shrunk jobs (modifyJob Job.finish i jobs) := by
  refine ⟨length_modifyJob _ _ _, fun k j1 hj1 => ?_⟩
  rw [get?_modifyJob] at hj1
  split at hj1
  · cases hj : jobs.get? k with
    | none => rw [hj] at hj1; cases hj1
    | some j0 =>
      rw [hj] at hj1
      simp only [Option.map_some', Option.some.injEq] at hj1
      subst hj1
      exact ⟨j0, rfl, rfl, fun h => by simp [Job.finish] at h⟩
  · exact ⟨j1, hj1, rfl, id⟩

theorem shrunk_complete (e : Exit) (jobs : List Job) (w : World) :
    Shrunk jobs (complete e jobs w).1 := by
  unfold complete
  cases jobs.get? e.idx with
  | none => exact Shrunk.rflJobs _
  | some j =>
    simp only
    split
    · exact Shrunk.rflJobs _
    · exact shrunk_finish _ _

theorem shrunk_completeAll (es : List Exit) (jobs : List Job) (w : World) :
    Shrunk jobs (completeAll es jobs w).1 := by
  induction es generalizing jobs w with
  | nil => exact Shrunk.rflJobs _
  | cons e es ih =>
    have h := shrunk_complete e jobs w
    unfold completeAll
    cases hc : complete e jobs w with
    | mk jobs1 r =>
      rw [hc] at h
      cases r with
      | ok w1 => exact h.transJobs (ih jobs1 w1)
      | panic w1 => exact h

theorem drop_of_get? {jobs : List Job} {i : Nat} {j : Job} (h : jobs.get? i = some j) :
    jobs.drop i = j :: jobs.drop (i + 1) := by
  induction jobs generalizing i with
  | nil => simp at h
  | cons a as ih =>
    cases i with
    | zero => simp at h; simp [h]
    | succ i =>
      have h1 : as.get? i = some j := by simpa using h
      simpa using ih h1

/-- The visit of one job in the drain: callbacks and at most one call of
Wait, on the job at that position, which was running when the loop was
left. -/
theorem drainJob_facts (env : DrainEnv) (i : Nat) (jobs0 jobs : List Job) (w : World)
    (hs : Shrunk jobs0 jobs) :
    Shrunk jobs0 (drainJob env i jobs w).1 ∧
    LogExt Event.isDrain w (drainJob env i jobs w).2.state ∧
    Frame (fun m _ => m ≠ Metric.overdue) w (drainJob env i jobs w).2.state ∧
    ∃ ws, waitsOf (drainJob env i jobs w).2.state.log = waitsOf w.log ++ ws ∧
      (ws = [] ∨ ∃ j0, jobs0.get? i = some j0 ∧ j0.running = true ∧ ws = [j0.Name]) := by
  have h1 := shrunk_completeAll (env.exitsBefore i) jobs w
  have h2 := logExt_completeAll (env.exitsBefore i) jobs w
  have h3 := frame_completeAll (env.exitsBefore i) jobs w
  have hcb : ∀ e, Event.isCallback e = true → Event.isDrain e = true := by
    intro e he
    cases e <;> simp_all [Event.isCallback, Event.isDrain]
  unfold drainJob
  cases hca : completeAll (env.exitsBefore i) jobs w with
  | mk jobs1 r =>
    rw [hca] at h1 h2 h3
    cases r with
    | panic w1 =>
      exact ⟨hs.transJobs h1, h2.monoExt hcb, h3, [], by simp [waitsOf_logExt_callback h2], Or.inl rfl⟩
    | ok w1 =>
      simp only
      cases hg : jobs1.get? i with
      | none =>
        exact ⟨hs.transJobs h1, h2.monoExt hcb, h3, [],
          by simp [waitsOf_logExt_callback h2], Or.inl rfl⟩
      | some j =>
        simp only
        split
        · rename_i hrun
          obtain ⟨j0, hj0, hn, hr⟩ := (hs.transJobs h1).2 i j hg
          have c1 := shrunk_complete ⟨i, env.waited i⟩ jobs1
            ((w1.printf (.logWaiting j.Name)).printf (.wait j.Name))
          have c2 := logExt_complete ⟨i, env.waited i⟩ jobs1
            ((w1.printf (.logWaiting j.Name)).printf (.wait j.Name))
          have c3 := frame_complete ⟨i, env.waited i⟩ jobs1
            ((w1.printf (.logWaiting j.Name)).printf (.wait j.Name))
          refine ⟨(hs.transJobs h1).transJobs c1, ?_, ?_, [j0.Name], ?_, Or.inr ⟨j0, hj0, hr hrun, rfl⟩⟩
          · exact ((h2.monoExt hcb).transExt
              ((logExt_printf w1 (.logWaiting j.Name) rfl).transExt
                (logExt_printf _ (.wait j.Name) rfl))).transExt (c2.monoExt hcb)
          · exact (h3.trans ((frame_printf _ _ _).trans (frame_printf _ _ _))).trans c3
          · rw [waitsOf_logExt_callback c2]
            simp only [World.printf, waitsOf_append, waitsOf, List.append_nil]
            have h2w : waitsOf w1.log = waitsOf w.log := waitsOf_logExt_callback h2
            rw [h2w, hn]
        · exact ⟨hs.transJobs h1, h2.monoExt hcb, h3, [],
            by simp [waitsOf_logExt_callback h2], Or.inl rfl⟩

/-- The drain from position i on: callbacks and calls of Wait only, the calls
of Wait on jobs that were running when the loop was left, in table order, and
no change to an overdue counter. -/
theorem drainFrom_facts (env : DrainEnv) (n i : Nat) (jobs0 jobs : List Job) (w : World)
    (hs : Shrunk jobs0 jobs) :
    Shrunk jobs0 (drainFrom env n i jobs w).1 ∧
    LogExt Event.isDrain w (drainFrom env n i jobs w).2.state ∧
    Frame (fun m _ => m ≠ Metric.overdue) w (drainFrom env n i jobs w).2.state ∧
    ∃ ws, waitsOf (drainFrom env n i jobs w).2.state.log = waitsOf w.log ++ ws ∧
      List.Sublist ws (((jobs0.drop i).filter (fun j => j.running)).map Job.Name) := by
  induction n generalizing i jobs w with
  | zero =>
    exact ⟨hs, LogExt.rflExt _ _, Frame.refl _ _, [], by simp [drainFrom, Result.state], by simp⟩
  | succ n ih =>
    obtain ⟨d1, d2, d3, ws1, d4, d5⟩ := drainJob_facts env i jobs0 jobs w hs
    have hsub1 : List.Sublist ws1 (((jobs0.drop i).filter (fun j => j.running)).map Job.Name) := by
      rcases d5 with rfl | ⟨j0, hj0, hr0, rfl⟩
      · exact List.nil_sublist _
      · rw [drop_of_get? hj0]
        simp [List.filter_cons, hr0]
    unfold drainFrom
    cases hd : drainJob env i jobs w with
    | mk jobs1 r =>
      rw [hd] at d1 d2 d3 d4
      cases r with
      | panic w1 => exact ⟨d1, d2, d3, ws1, d4, hsub1⟩
      | ok w1 =>
        obtain ⟨e1, e2, e3, ws2, e4, e5⟩ := ih (i + 1) jobs1 w1 d1
        refine ⟨e1, d2.transExt e2, d3.trans e3, ws1 ++ ws2, ?_, ?_⟩
        · simp only
          rw [e4]
          simp only [Result.state] at d4
          rw [d4, List.append_assoc]
        · rcases d5 with rfl | ⟨j0, hj0, hr0, rfl⟩
          · simp only [List.nil_append]
            exact e5.trans (((List.drop_sublist_drop_left jobs0 (Nat.le_succ i)).filter _).map _)
          · rw [drop_of_get? hj0]
            simp only [List.filter_cons, hr0, if_true, List.map_cons, List.singleton_append]
            exact e5.cons₂ _

theorem drop_modifyJob (f : Job → Job) (i : Nat) (jobs : List Job) :
    (modifyJob f i jobs).drop (i + 1) = jobs.drop (i + 1) := by
  induction jobs generalizing i with
  | nil => cases i <;> rfl
  | cons j js ih =>
    cases i with
    | zero => simp [modifyJob]
    | succ i => simpa [modifyJob] using ih i

theorem drop_complete (e : Exit) (jobs : List Job) (w : World) :
    (complete e jobs w).1.drop (e.idx + 1) = jobs.drop (e.idx + 1) ∧
    (complete e jobs w).1.length = jobs.length := by
  unfold complete
  cases jobs.get? e.idx with
  | none => exact ⟨rfl, rfl⟩
  | some j =>
    simp only
    split
    · exact ⟨rfl, rfl⟩
    · exact ⟨drop_modifyJob _ _ _, length_modifyJob _ _ _⟩

/-- When no callback runs on its own and none panics, the drain calls Wait on
every job that is running, in table order. -/
theorem drainFrom_quiet (env : DrainEnv) (hq : ∀ i, env.exitsBefore i = []) (n i : Nat)
    (jobs jobs1 : List Job) (w w1 : World) (hlen : i + n = jobs.length)
    (h : drainFrom env n i jobs w = (jobs1, .ok w1)) :
    waitsOf w1.log = waitsOf w.log ++ ((jobs.drop i).filter (fun j => j.running)).map Job.Name := by
  induction n generalizing i jobs w with
  | zero =>
    simp only [drainFrom, Prod.mk.injEq, Result.ok.injEq] at h
    obtain ⟨_, rfl⟩ := h
    have : jobs.drop i = [] := List.drop_eq_nil_of_le (by omega)
    simp [this]
  | succ n ih =>
    have hi : i < jobs.length := by omega
    obtain ⟨j, hj⟩ : ∃ j, jobs.get? i = some j := ⟨jobs.get ⟨i, hi⟩, List.get?_eq_get hi⟩
    unfold drainFrom at h
    unfold drainJob at h
    simp only [hq i, completeAll, hj] at h
    rw [drop_of_get? hj]
    by_cases hrun : j.IsRunning = true
    · simp only [hrun, if_true] at h
      have c1 := drop_complete ⟨i, env.waited i⟩ jobs
        ((w.printf (.logWaiting j.Name)).printf (.wait j.Name))
      have c2 := logExt_complete ⟨i, env.waited i⟩ jobs
        ((w.printf (.logWaiting j.Name)).printf (.wait j.Name))
      cases hc : complete ⟨i, env.waited i⟩ jobs
        ((w.printf (.logWaiting j.Name)).printf (.wait j.Name)) with
      | mk jobs2 r =>
        rw [hc] at h c1 c2
        cases r with
        | panic w2 => simp at h
        | ok w2 =>
          simp only at h c1
          have hr := ih (i + 1) jobs2 w2 (by omega) h
          have hw0 : waitsOf w2.log =
              waitsOf ((w.printf (.logWaiting j.Name)).printf (.wait j.Name)).log :=
            waitsOf_logExt_callback c2
          have hw : waitsOf w2.log = waitsOf w.log ++ [j.Name] := by
            rw [hw0]
            simp [World.printf, waitsOf_append, waitsOf]
          have hrun1 : j.running = true := hrun
          rw [hr, hw, c1.1]
          simp [List.filter_cons, hrun1]
    · simp only [hrun] at h
      have hr := ih (i + 1) jobs w (by omega) h
      have hrun1 : j.running = false := by
        simpa [Job.IsRunning] using hrun
      rw [hr]
      simp [List.filter_cons, hrun1]

/-- An iteration whose tick-wait ends by the shutdown signal leaves the loop
(or stops in the panic of a callback), having run the skew check and the
callbacks only. -/
theorem iteration_done (t : Tick) (s : State) (hev : t.ev = .done) :
    (iteration t s = .leave (iteration t s).state ∨
      iteration t s = .crash (iteration t s).state) ∧
    LogExt (fun e => e.isSkew || e.isCallback) s.w (iteration t s).state.w ∧
    (iteration t s).state.w.overdueCounter = s.w.overdueCounter ∧
    Shrunk s.jobs (iteration t s).state.jobs := by
  have h1 := shrunk_completeAll t.exits s.jobs
    (skewCheck s.prevCheck ((t.now.Add (delayTillNextCheck t.now)).Add (-60 * Second)) s.w)
  have h2 := logExt_completeAll t.exits s.jobs
    (skewCheck s.prevCheck ((t.now.Add (delayTillNextCheck t.now)).Add (-60 * Second)) s.w)
  have h3 := frame_completeAll t.exits s.jobs
    (skewCheck s.prevCheck ((t.now.Add (delayTillNextCheck t.now)).Add (-60 * Second)) s.w)
  have h4 := logExt_skewCheck s.prevCheck
    ((t.now.Add (delayTillNextCheck t.now)).Add (-60 * Second)) s.w
  have h5 := (skewCheck_maps s.prevCheck
    ((t.now.Add (delayTillNextCheck t.now)).Add (-60 * Second)) s.w).1
  have hlog := (h4.monoExt (B := fun e => e.isSkew || e.isCallback)
    (fun e he => by simp [he])).transExt (h2.monoExt (fun e he => by simp [he]))
  have hov : (completeAll t.exits s.jobs
      (skewCheck s.prevCheck ((t.now.Add (delayTillNextCheck t.now)).Add (-60 * Second))
        s.w)).2.state.overdueCounter = s.w.overdueCounter := by
    rw [← h5]
    funext k
    exact h3.overdue k (by simp)
  unfold iteration
  simp only
  cases hca : completeAll t.exits s.jobs
    (skewCheck s.prevCheck ((t.now.Add (delayTillNextCheck t.now)).Add (-60 * Second)) s.w) with
  | mk jobs1 r =>
    rw [hca] at h1 hlog hov
    cases r with
    | panic w2 => exact ⟨Or.inr rfl, hlog, hov, h1⟩
    | ok w2 =>
      simp only [hev]
      exact ⟨Or.inl rfl, hlog, hov, h1⟩

theorem delay_wall (t : Time) :
    t.wall + delayTillNextCheck t = t.minuteStart + 90 * Second := by
  obtain ⟨w, m⟩ := t
  simp only [delayTillNextCheck, Time.Second, Time.Nanosecond, Time.minuteStart, Second,
    Nanosecond, Duration]
  omega

theorem delay_bounds (t : Time) :
    30 * Second < delayTillNextCheck t ∧ delayTillNextCheck t ≤ 90 * Second := by
  obtain ⟨w, m⟩ := t
  simp only [delayTillNextCheck, Time.Second, Time.Nanosecond, Second, Nanosecond, Duration]
  omega

/-! ### The preview loop ends within its rounds -/

theorem after_of_sameBase (stop sim : Time) (h : stop.sameBase sim) :
    stop.After sim = decide (sim.wall < stop.wall) := by
  obtain ⟨ws, ms⟩ := stop
  obtain ⟨wi, mi⟩ := sim
  cases ms <;> cases mi <;> simp only [Time.sameBase, Time.After] at h ⊢
  simp only [decide_eq_decide]
  omega

theorem sameBase_add (stop sim : Time) (d : Duration) (h : stop.sameBase sim) :
    stop.sameBase (sim.Add d) := by
  obtain ⟨ws, ms⟩ := stop
  obtain ⟨wi, mi⟩ := sim
  cases ms <;> cases mi <;> simp only [Time.sameBase, Time.Add, Option.map] at h ⊢
  omega

theorem sameBase_of_add (now : Time) (d : Duration) : (now.Add d).sameBase now := by
  obtain ⟨w, m⟩ := now
  cases m <;> simp only [Time.sameBase, Time.Add, Option.map]
  omega

/-- More rounds than the distance to the stop instant requires change
nothing: the preview loop has ended by then. -/
theorem printLoop_stable (jobs : List Job) (n m : Nat) (stop sim : Time)
    (out : List (Time × String)) (hb : stop.sameBase sim)
    (hd : stop.wall - sim.wall ≤ 30000000000 * (n : Int)) (hnm : n ≤ m) :
    printLoop jobs m stop sim out = printLoop jobs n stop sim out := by
  induction n generalizing m sim out with
  | zero =>
    have ha : stop.After sim = false := by
      rw [after_of_sameBase stop sim hb]
      exact decide_eq_false (by omega)
    cases m with
    | zero => rfl
    | succ m => simp [printLoop, ha]
  | succ n ih =>
    cases m with
    | zero => omega
    | succ m =>
      unfold printLoop
      split
      · have hdl := (delay_bounds sim).1
        simp only [Second, Duration] at hdl
        apply ih
        · exact sameBase_add stop sim _ hb
        · simp only [Time.Add]
          push_cast at hd
          omega
        · omega
      · rfl

/-- The preview returns: the rounds given to its loop suffice, more rounds
print the same lines. -/
theorem printScheduleAndExit_total (printScheduleFor : Duration) (now : Time) (jobs : List Job)
    (m : Nat)
    (hm : printRounds (if printScheduleFor ≠ 0 then printScheduleFor else 24 * Hour) ≤ m) :
    printLoop jobs m
        (now.Add (if printScheduleFor ≠ 0 then printScheduleFor else 24 * Hour)) now [] =
      printScheduleAndExit printScheduleFor now jobs := by
  unfold printScheduleAndExit
  simp only
  apply printLoop_stable
  · exact sameBase_of_add now _
  · generalize (if printScheduleFor ≠ 0 then printScheduleFor else 24 * Hour) = d
    simp only [Time.Add, printRounds, Second, Duration]
    push_cast
    omega
  · exact hm

/-- Under an ideal clock the live loop wakes for its tick of index k at the
instant the preview simulates in its round of index k: both are the next
ideal reading. -/
theorem ideal_wake_eq_simulated (start : Time) (k : Nat) :
    ((plainTick (idealReading start k)).now.Add
      (delayTillNextCheck (plainTick (idealReading start k)).now)) =
    idealReading start (k + 1) := rfl

/-! ### Registration and the jobs found due -/

theorem registered_registerJob_self (w : World) (j : Job) : (registerJob w j).Registered j.Name := by
  simp [World.Registered, registerJob]

theorem registered_registerJob (w : World) (j : Job) (k : String) (h : w.Registered k) :
    (registerJob w j).Registered k := by
  by_cases hk : k = j.Name
  · subst hk
    exact registered_registerJob_self w j
  · simpa [World.Registered, registerJob, Function.update_noteq hk] using h

theorem registered_foldl (jobs : List Job) (w : World) (k : String)
    (h : w.Registered k ∨ k ∈ jobs.map Job.Name) :
    (jobs.foldl registerJob w).Registered k := by
  induction jobs generalizing w with
  | nil =>
    rcases h with h | h
    · exact h
    · simp at h
  | cons j js ih =>
    simp only [List.foldl_cons]
    apply ih
    rcases h with h | h
    · exact Or.inl (registered_registerJob w j k h)
    · simp only [List.map_cons, List.mem_cons] at h
      rcases h with rfl | h
      · exact Or.inl (registered_registerJob_self w j)
      · exact Or.inr h

/-- Main enters the loop with the metrics of every job of the table
registered. -/
theorem registered_startState (jobs : List Job) (now : Time) :
    ∀ j ∈ jobs, (startState jobs now).w.Registered j.Name := by
  intro j hj
  have h := registered_foldl jobs World.init j.Name (Or.inr (List.mem_map_of_mem _ hj))
  exact (frame_printf (fun _ _ => False) _ _).registered _ h

theorem dispatchedOf_append (l1 l2 : List Event) :
    dispatchedOf (l1 ++ l2) = dispatchedOf l1 ++ dispatchedOf l2 := by
  induction l1 with
  | nil => rfl
  | cons e es ih => cases e <;> simp [dispatchedOf, ih]

/-- The body of the dispatch loop finds its job due exactly when ShouldRunAt
holds at the reading now that it is given. -/
theorem dispatchJob_dispatchedOf (now : Time) (j j1 : Job) (w w1 : World)
    (h : dispatchJob now j w = (j1, .ok w1)) :
    dispatchedOf w1.log =
      dispatchedOf w.log ++ if j.ShouldRunAt now then [j.Name] else [] := by
  unfold dispatchJob at h
  cases hd : j.ShouldRunAt now with
  | false =>
    simp only [hd, Bool.not_false, if_true, Prod.mk.injEq, Result.ok.injEq] at h
    obtain ⟨_, rfl⟩ := h
    simp
  | true =>
    simp only [hd, Bool.not_true, Bool.false_eq_true, if_false] at h
    cases hr : j.IsRunning with
    | true =>
      simp only [hr, if_true, Prod.mk.injEq] at h
      have hl := log_incOverdue j.Name (w.printf (.logOverdue j.Name))
      rw [h.2] at hl
      simp only [Result.state] at hl
      rw [hl]
      simp [World.printf, dispatchedOf_append, dispatchedOf]
    | false =>
      simp only [hr, Bool.false_eq_true, if_false] at h
      have hl := log_setRunning j.Name (.num 1) (w.printf (.logStarting j.Name))
      cases hs : World.setRunning j.Name (.num 1) (w.printf (.logStarting j.Name)) with
      | panic w2 => simp [hs] at h
      | ok w2 =>
        rw [hs] at hl h
        simp only [Prod.mk.injEq, Result.ok.injEq] at h
        obtain ⟨_, rfl⟩ := h
        simp only [Result.state] at hl
        simp [World.printf, hl, dispatchedOf_append, dispatchedOf]

/-- The dispatch loop finds due the jobs whose ShouldRunAt holds at the
reading now that it is given, which in the live loop is the reading taken
before the tick-wait. -/
theorem dispatch_dispatchedOf (now : Time) (jobs jobs1 : List Job) (w w1 : World)
    (h : dispatch now jobs w = (jobs1, .ok w1)) :
    dispatchedOf w1.log =
      dispatchedOf w.log ++ (jobs.filter (fun j => j.ShouldRunAt now)).map Job.Name := by
  induction jobs generalizing w jobs1 with
  | nil =>
    simp only [dispatch, Prod.mk.injEq, Result.ok.injEq] at h
    obtain ⟨_, rfl⟩ := h
    simp
  | cons j js ih =>
    unfold dispatch at h
    cases hd : dispatchJob now j w with
    | mk j1 r =>
      rw [hd] at h
      cases r with
      | panic w2 => simp at h
      | ok w2 =>
        simp only at h
        cases hds : dispatch now js w2 with
        | mk js1 r2 =>
          rw [hds] at h
          simp only [Prod.mk.injEq] at h
          obtain ⟨_, rfl⟩ := h
          rw [ih js1 w2 hds, dispatchJob_dispatchedOf now j j1 w w2 hd]
          cases hsr : j.ShouldRunAt now <;> simp [List.filter_cons, hsr]

/-- C2: for every instant t, t advanced by delayTillNextCheck t lies exactly
90 s after the start of the minute containing t, that is 30 s past the top of
the following minute, with second offset 30 and no sub-second part; and at
second 30, nanosecond 0 the delay is exactly 60 s. -/
theorem C2_next_check_is_mid_next_minute (t : Time) :
    0 ≤ t.Second ∧ t.Second ≤ 59 ∧ 0 ≤ t.Nanosecond ∧ t.Nanosecond ≤ 999999999 ∧
    (t.Add (delayTillNextCheck t)).wall = t.minuteStart + 90 * Second ∧
    (t.Add (delayTillNextCheck t)).minuteIndex = t.minuteIndex + 1 ∧
    (t.Add (delayTillNextCheck t)).Second = 30 ∧
    (t.Add (delayTillNextCheck t)).Nanosecond = 0 ∧
    (t.Second = 30 → t.Nanosecond = 0 → delayTillNextCheck t = 60 * Second) := by
  obtain ⟨w, m⟩ := t
  simp only [delayTillNextCheck, Time.Add, Time.minuteIndex, Time.Second, Time.Nanosecond,
    Time.minuteStart, Second, Nanosecond, Duration]
  omega

/-- C8, refuted as stated: at the top of minute 0 of the epoch (second 0,
nanosecond 0) the delay is 90 s, not 30 s. -/
theorem C8_delay_at_minute_top_not_30s :
    minuteTop.Second = 0 ∧ minuteTop.Nanosecond = 0 ∧
    delayTillNextCheck minuteTop = 90 * Second ∧
    delayTillNextCheck minuteTop ≠ 30 * Second := by
  refine ⟨?_, ?_, ?_, ?_⟩ <;> decide

/-- C8, amended: at every instant with second 0 and nanosecond 0 the delay is
exactly 90 s. -/
theorem C8_delay_at_minute_top (t : Time) (hs : t.Second = 0) (hn : t.Nanosecond = 0) :
    delayTillNextCheck t = 90 * Second := by
  unfold delayTillNextCheck
  rw [hs, hn]
  decide

/-- C8, amended, at the top of minute 2 of the epoch. -/
theorem C8_delay_at_minute_top_witness :
    (Time.mk 120000000000 (some 7)).Second = 0 ∧
    (Time.mk 120000000000 (some 7)).Nanosecond = 0 ∧
    delayTillNextCheck (Time.mk 120000000000 (some 7)) = 90 * Second :=
  ⟨by decide, by decide,
    C8_delay_at_minute_top (Time.mk 120000000000 (some 7)) (by decide) (by decide)⟩

/-- C5: for a job with registered metrics and a command with a process
state, the decoded status is 0 for a nil error, the wait-status exit code for
an exit error carrying one and 127 for any other error; onJobExit returns,
logs the decoded status, increments the success counter alone when the status
is 0 and the failure counter alone otherwise, sets the is-running gauge to 0
and the duration gauge to the elapsed duration, and leaves the metrics of
every other job unchanged. -/
theorem C5_onJobExit_outcome (jobName : String) (duration : Duration) (ps : ProcessState)
    (err : Option GoError) (w : World) (hreg : w.Registered jobName) :
    decodeExitStatus none = 0 ∧
    (∀ status, decodeExitStatus (some (.exitError (some status))) = status.ExitStatus) ∧
    decodeExitStatus (some (.exitError none)) = 127 ∧
    decodeExitStatus (some .other) = 127 ∧
    ∃ w1 s f, onJobExit jobName duration ⟨some ps⟩ err w = .ok w1 ∧
      w1.log = w.log ++ [.logFinished jobName duration (decodeExitStatus err)] ∧
      w.successCounter jobName = some s ∧ w.failureCounter jobName = some f ∧
      (decodeExitStatus err = 0 →
        w1.successCounter jobName = some (s + 1) ∧ w1.failureCounter jobName = some f) ∧
      (decodeExitStatus err ≠ 0 →
        w1.failureCounter jobName = some (f + 1) ∧ w1.successCounter jobName = some s) ∧
      w1.runningGauge jobName = some (some (.num 0)) ∧
      w1.durationGauge jobName = some (some (.seconds duration)) ∧
      Frame (fun _ other => other = jobName) w w1 := by
  refine ⟨rfl, fun _ => rfl, rfl, rfl, ?_⟩
  obtain ⟨w1, s, f, hok, hs, hf, h0, h1, hr, hd⟩ :=
    onJobExit_launched jobName duration ps err w hreg
  refine ⟨w1, s, f, hok, ?_, hs, hf, h0, h1, hr, hd, ?_⟩
  · have h := log_onJobExit jobName duration ⟨some ps⟩ err w
    rw [hok] at h
    exact h
  · have h := frame_onJobExit jobName duration ⟨some ps⟩ err w
    rw [hok] at h
    exact h.mono (fun m x hx => hx.2)

/-- C5 at the sample world: job always exits with status 3. -/
theorem C5_onJobExit_outcome_witness :
    sampleWorld.Registered "always" ∧
    ∃ w1, onJobExit "always" (2 * Second) ⟨some ⟨.other⟩⟩ (some (.exitError (some ⟨3⟩)))
        sampleWorld = .ok w1 ∧
      w1.failureCounter "always" = some 1 ∧ w1.successCounter "always" = some 0 ∧
      w1.successCounter "hourly" = some 0 := by
  have hreg : sampleWorld.Registered "always" := by
    unfold World.Registered
    decide
  obtain ⟨_, _, _, _, w1, s, f, hok, _, hs, hf, _, h1, _, _, hfr⟩ :=
    C5_onJobExit_outcome "always" (2 * Second) ⟨.other⟩ (some (.exitError (some ⟨3⟩)))
      sampleWorld hreg
  have hs0 : s = 0 := by
    have : sampleWorld.successCounter "always" = some 0 := by decide
    rw [this] at hs
    exact (Option.some.inj hs).symm
  have hf0 : f = 0 := by
    have : sampleWorld.failureCounter "always" = some 0 := by decide
    rw [this] at hf
    exact (Option.some.inj hf).symm
  subst hs0 hf0
  refine ⟨hreg, w1, hok, (h1 (by decide)).1, (h1 (by decide)).2, ?_⟩
  rw [hfr.success "hourly" (by decide)]
  decide

/-- C6, the code at the failing input: a command that could not be launched
(no process state, an error that is not an exit error) makes onJobExit panic
at the read of its resource usage, after the is-running gauge was cleared and
the failure counter incremented, with the resource gauges never set; and the
run of main in which that callback fires ends in the panic. -/
theorem C6_unlaunched_command_panics :
    (onJobExit "always" notLaunched.duration notLaunched.cmd notLaunched.err
      sampleWorld).panicked = true ∧
    (onJobExit "always" notLaunched.duration notLaunched.cmd notLaunched.err
      sampleWorld).state.runningGauge "always" = some (some (.num 0)) ∧
    (onJobExit "always" notLaunched.duration notLaunched.cmd notLaunched.err
      sampleWorld).state.failureCounter "always" = some 1 ∧
    (onJobExit "always" notLaunched.duration notLaunched.cmd notLaunched.err
      sampleWorld).state.maxrssBytesGauge "always" = some none ∧
    (main sampleJobs sampleNow
      [⟨sampleNow, [], .timer⟩, ⟨sampleNow.Add (80 * Second), [⟨1, notLaunched⟩], .timer⟩]
      quietDrain).isCrashed = true := by
  refine ⟨?_, ?_, ?_, ?_, ?_⟩ <;> decide

/-- One loop iteration in terms of the calls the code makes, with
expectedPrev the instant now + delayTillNextCheck(now) - 60 s and recordedPrev
the stored previous check: equal Unix seconds leave both skew counters
unchanged; different seconds with expectedPrev.After(recordedPrev) add one to
forward-time-skips alone; different seconds with
expectedPrev.Before(recordedPrev) add one to backward-time-skips alone.
Whatever the case, when the tick-wait ends by the timer (and no callback
panicked meanwhile) the iteration runs the due-check at now and stores now +
delayTillNextCheck(now) as the new recordedPrev. -/
theorem iteration_skew_by_method (t : Tick) (s : State) :
    (((t.now.Add (delayTillNextCheck t.now)).Add (-60 * Second)).Unix = s.prevCheck.Unix →
      (iteration t s).state.w.forwardTimeSkips = s.w.forwardTimeSkips ∧
      (iteration t s).state.w.backwardTimeSkips = s.w.backwardTimeSkips) ∧
    (((t.now.Add (delayTillNextCheck t.now)).Add (-60 * Second)).Unix ≠ s.prevCheck.Unix →
      ((t.now.Add (delayTillNextCheck t.now)).Add (-60 * Second)).After s.prevCheck = true →
      (iteration t s).state.w.forwardTimeSkips = s.w.forwardTimeSkips + 1 ∧
      (iteration t s).state.w.backwardTimeSkips = s.w.backwardTimeSkips) ∧
    (((t.now.Add (delayTillNextCheck t.now)).Add (-60 * Second)).Unix ≠ s.prevCheck.Unix →
      ((t.now.Add (delayTillNextCheck t.now)).Add (-60 * Second)).Before s.prevCheck = true →
      (iteration t s).state.w.backwardTimeSkips = s.w.backwardTimeSkips + 1 ∧
      (iteration t s).state.w.forwardTimeSkips = s.w.forwardTimeSkips) ∧
    (t.ev = .timer → (∀ j ∈ s.jobs, s.w.Registered j.Name) →
      ∀ jobs1 w2,
        completeAll t.exits s.jobs
          (skewCheck s.prevCheck ((t.now.Add (delayTillNextCheck t.now)).Add (-60 * Second))
            s.w) = (jobs1, .ok w2) →
        ∃ jobs2 w3, dispatch t.now jobs1 w2 = (jobs2, .ok w3) ∧
          iteration t s =
            .next { jobs := jobs2, w := w3,
                    prevCheck := t.now.Add (delayTillNextCheck t.now) }) := by
  obtain ⟨hf, hb⟩ := iteration_skew t s
  obtain ⟨c1, c2, c3⟩ := skewCheck_cases s.prevCheck
    ((t.now.Add (delayTillNextCheck t.now)).Add (-60 * Second)) s.w
  rw [hf, hb]
  refine ⟨c1, c2, fun h hbef => c3 h (before_not_after _ _ hbef), ?_⟩
  intro hev hreg jobs1 w2 hc
  have hfr := frame_completeAll t.exits s.jobs
    (skewCheck s.prevCheck ((t.now.Add (delayTillNextCheck t.now)).Add (-60 * Second)) s.w)
  have hn := names_completeAll t.exits s.jobs
    (skewCheck s.prevCheck ((t.now.Add (delayTillNextCheck t.now)).Add (-60 * Second)) s.w)
  rw [hc] at hfr hn
  have hreg2 : ∀ j ∈ jobs1, w2.Registered j.Name :=
    registered_of_names hn
      (fun j hj => hfr.registered j.Name (skewCheck_registered _ _ _ _ (hreg j hj)))
  obtain ⟨jobs2, w3, hd⟩ := dispatch_ok t.now jobs1 w2 hreg2
  refine ⟨jobs2, w3, hd, ?_⟩
  simp only [iteration, hc, hev, hd]

/-- C3, the code at the failing inputs: after an iteration that read 01:00:30
and stored 01:01:30 as recordedPrev, a reading of 01:11:50 gives expectedPrev
01:11:30, which differs in Unix seconds from recordedPrev and is the later
instant, and the code adds one to backward-time-skips and none to
forward-time-skips; a reading of 00:01:10 gives expectedPrev 00:01:30, the
earlier instant, and the code adds one to forward-time-skips and none to
backward-time-skips. -/
theorem C3_direction_against_instant_order :
    (afterFirstTick halfPastOne).prevCheck.wall = 3690 * Second ∧
    ((setForwardTick.now.Add (delayTillNextCheck setForwardTick.now)).Add
      (-60 * Second)).wall = 4290 * Second ∧
    ((setForwardTick.now.Add (delayTillNextCheck setForwardTick.now)).Add
      (-60 * Second)).Unix ≠ (afterFirstTick halfPastOne).prevCheck.Unix ∧
    (afterFirstTick halfPastOne).prevCheck.wall <
      ((setForwardTick.now.Add (delayTillNextCheck setForwardTick.now)).Add
        (-60 * Second)).wall ∧
    (iteration setForwardTick (afterFirstTick halfPastOne)).state.w.forwardTimeSkips =
      (afterFirstTick halfPastOne).w.forwardTimeSkips ∧
    (iteration setForwardTick (afterFirstTick halfPastOne)).state.w.backwardTimeSkips =
      (afterFirstTick halfPastOne).w.backwardTimeSkips + 1 ∧
    ((setBackTick.now.Add (delayTillNextCheck setBackTick.now)).Add
      (-60 * Second)).wall = 90 * Second ∧
    ((setBackTick.now.Add (delayTillNextCheck setBackTick.now)).Add
      (-60 * Second)).Unix ≠ (afterFirstTick halfPastOne).prevCheck.Unix ∧
    ((setBackTick.now.Add (delayTillNextCheck setBackTick.now)).Add
      (-60 * Second)).wall < (afterFirstTick halfPastOne).prevCheck.wall ∧
    (iteration setBackTick (afterFirstTick halfPastOne)).state.w.backwardTimeSkips =
      (afterFirstTick halfPastOne).w.backwardTimeSkips ∧
    (iteration setBackTick (afterFirstTick halfPastOne)).state.w.forwardTimeSkips =
      (afterFirstTick halfPastOne).w.forwardTimeSkips + 1 := by
  refine ⟨?_, ?_, ?_, ?_, ?_, ?_, ?_, ?_, ?_, ?_, ?_⟩ <;> decide

/-- C10, the code at the failing inputs: after an iteration that read
01:00:30 and a wait of the computed 60 s on the monotonic clock, a wall clock
set back to 00:01:10 (an earlier minute) adds one to forward-time-skips and
none to backward-time-skips, and a wall clock set forward to 01:11:50 (a
later minute than the following one) adds one to backward-time-skips and none
to forward-time-skips. -/
theorem C10_direction_follows_monotonic_clock :
    (afterFirstTick halfPastOne).prevCheck =
      halfPastOne.Add (delayTillNextCheck halfPastOne) ∧
    setBackTick.now.minuteIndex < halfPastOne.minuteIndex ∧
    (iteration setBackTick (afterFirstTick halfPastOne)).state.w.forwardTimeSkips =
      (afterFirstTick halfPastOne).w.forwardTimeSkips + 1 ∧
    (iteration setBackTick (afterFirstTick halfPastOne)).state.w.backwardTimeSkips =
      (afterFirstTick halfPastOne).w.backwardTimeSkips ∧
    halfPastOne.minuteIndex + 1 < setForwardTick.now.minuteIndex ∧
    (iteration setForwardTick (afterFirstTick halfPastOne)).state.w.backwardTimeSkips =
      (afterFirstTick halfPastOne).w.backwardTimeSkips + 1 ∧
    (iteration setForwardTick (afterFirstTick halfPastOne)).state.w.forwardTimeSkips =
      (afterFirstTick halfPastOne).w.forwardTimeSkips := by
  refine ⟨?_, ?_, ?_, ?_, ?_, ?_, ?_⟩ <;> decide

/-- C1: in the dispatch step over a table with distinct job names and
registered metrics, a job that is due and running gets no call of Start and
one more on its overdue counter; a job that is due and not running gets
exactly one call of Start, its is-running gauge set to 1 and its overdue
counter left as it is; a job that is not due gets no call of Start and keeps
every counter and gauge. Hence, Start marking the job running until the
completion callback, every run of main from a freshly parsed table keeps at
most one process in flight per job. -/
theorem C1_dispatch_step (now : Time) (jobs : List Job) (w : World)
    (hnd : (jobs.map Job.Name).Nodup) (hreg : ∀ j ∈ jobs, w.Registered j.Name) :
    (∃ jobs1 w1, dispatch now jobs w = (jobs1, .ok w1) ∧
      ∀ j ∈ jobs,
        (j.ShouldRunAt now = true → j.IsRunning = true →
          w1.log.count (.start j.Name) = w.log.count (.start j.Name) ∧
          ∃ n, w.overdueCounter j.Name = some n ∧ w1.overdueCounter j.Name = some (n + 1)) ∧
        (j.ShouldRunAt now = true → j.IsRunning = false →
          w1.log.count (.start j.Name) = w.log.count (.start j.Name) + 1 ∧
          w1.runningGauge j.Name = some (some (.num 1)) ∧
          w1.overdueCounter j.Name = w.overdueCounter j.Name) ∧
        (j.ShouldRunAt now = false → SameAt j.Name w w1)) ∧
    ((∀ j ∈ jobs, j.running = false ∧ j.inFlight = 0) →
      ∀ (now0 : Time) (ticks : List Tick) (env : DrainEnv),
        ∀ j ∈ (main jobs now0 ticks env).state.jobs, j.inFlight ≤ 1) := by
  constructor
  · obtain ⟨jobs1, w1, hd⟩ := dispatch_ok now jobs w hreg
    exact ⟨jobs1, w1, hd, dispatch_effect now jobs jobs1 w w1 hnd hd⟩
  · intro hfresh now0 ticks env j hj
    have h0 : OneInFlight (startState jobs now0).jobs := by
      intro k hk
      have := hfresh k hk
      omega
    exact (oneInFlight_runFrom ticks env (startState jobs now0) h0 j hj).1

/-- C1 at the sample table: always is due and started, hourly is not due. -/
theorem C1_dispatch_step_witness :
    (sampleJobs.map Job.Name).Nodup ∧
    (∀ j ∈ sampleJobs, sampleWorld.Registered j.Name) ∧
    ∃ jobs1 w1, dispatch sampleNow sampleJobs sampleWorld = (jobs1, .ok w1) ∧
      w1.log.count (.start "always") = sampleWorld.log.count (.start "always") + 1 ∧
      w1.runningGauge "always" = some (some (.num 1)) ∧
      SameAt "hourly" sampleWorld w1 := by
  have hnd : (sampleJobs.map Job.Name).Nodup := by decide
  have hreg : ∀ j ∈ sampleJobs, sampleWorld.Registered j.Name := by decide
  obtain ⟨⟨jobs1, w1, hd, heff⟩, _⟩ := C1_dispatch_step sampleNow sampleJobs sampleWorld hnd hreg
  have ha := (heff (Job.fresh "always" (fun _ => true)) (by simp [sampleJobs])).2.1 rfl rfl
  have hh := (heff (Job.fresh "hourly" (fun t => t.minuteIndex % 60 == 1))
    (by simp [sampleJobs])).2.2 (by decide)
  exact ⟨hnd, hreg, jobs1, w1, hd, ha.1, ha.2.1, hh⟩

/-- C9: when the shutdown signal is the event taken at the tick-wait, the
iteration leaves the loop (or stops in the panic of a callback) after the
skew check and the callbacks alone, with no due-check and whatever ticks
would follow; from the start of that iteration to the end of the run no job
gets a call of Start, no overdue counter changes and no job becomes running;
what follows the loop consists of calls of Wait, with their log lines, and of
completion callbacks, the calls of Wait being on jobs that were running when
the loop was left, in table order, and on all of them when no callback runs
on its own and the run returns. -/
theorem C9_shutdown_stops_new_work (t : Tick) (ts : List Tick) (env : DrainEnv) (s : State)
    (hev : t.ev = .done) :
    (iteration t s = .leave (iteration t s).state ∨
      iteration t s = .crash (iteration t s).state) ∧
    LogExt (fun e => e.isSkew || e.isCallback) s.w (iteration t s).state.w ∧
    runFrom (t :: ts) env s = runFrom [t] env s ∧
    (∀ k, (runFrom (t :: ts) env s).state.w.log.count (.start k) = s.w.log.count (.start k)) ∧
    (runFrom (t :: ts) env s).state.w.overdueCounter = s.w.overdueCounter ∧
    Shrunk s.jobs (runFrom (t :: ts) env s).state.jobs ∧
    LogExt Event.isDrain (iteration t s).state.w (runFrom (t :: ts) env s).state.w ∧
    (∃ ws, waitsOf (runFrom (t :: ts) env s).state.w.log =
        waitsOf (iteration t s).state.w.log ++ ws ∧
      List.Sublist ws
        (((iteration t s).state.jobs.filter (fun j => j.running)).map Job.Name)) ∧
    ((∀ i, env.exitsBefore i = []) → ∀ s2, runFrom (t :: ts) env s = .returned s2 →
      waitsOf s2.w.log = waitsOf (iteration t s).state.w.log ++
        ((iteration t s).state.jobs.filter (fun j => j.running)).map Job.Name) := by
  obtain ⟨hcase, hlog, hov, hsh⟩ := iteration_done t s hev
  have hA : ∀ k, (fun e : Event => e.isSkew || e.isCallback) (.start k) = false := fun _ => rfl
  have hB : ∀ k, Event.isDrain (.start k) = false := fun _ => rfl
  refine ⟨hcase, hlog, ?_⟩
  rcases hcase with hl | hc
  · -- the loop is left
    have hrun : ∀ ts1, runFrom (t :: ts1) env s = shutdown env (iteration t s).state := by
      intro ts1
      generalize (iteration t s).state = s1 at hl ⊢
      simp only [runFrom, scheduler, hl]
    rw [hrun ts, hrun []]
    obtain ⟨d1, d2, d3, ws, d4, d5⟩ := drainFrom_facts env (iteration t s).state.jobs.length 0
      (iteration t s).state.jobs (iteration t s).state.jobs (iteration t s).state.w
      (Shrunk.rflJobs _)
    have hst : (shutdown env (iteration t s).state).state.jobs =
          (drainFrom env (iteration t s).state.jobs.length 0 (iteration t s).state.jobs
            (iteration t s).state.w).1 ∧
        (shutdown env (iteration t s).state).state.w =
          (drainFrom env (iteration t s).state.jobs.length 0 (iteration t s).state.jobs
            (iteration t s).state.w).2.state := by
      unfold shutdown drain
      cases drainFrom env (iteration t s).state.jobs.length 0 (iteration t s).state.jobs
        (iteration t s).state.w with
      | mk jobs1 r => cases r <;> exact ⟨rfl, rfl⟩
    rw [hst.1, hst.2]
    refine ⟨rfl, ?_, ?_, hsh.transJobs d1, d2, ⟨ws, d4, by simpa using d5⟩, ?_⟩
    · intro k
      rw [count_start_logExt hB d2 k, count_start_logExt hA hlog k]
    · rw [← hov]
      funext k
      exact d3.overdue k (by simp)
    · intro hq s2 hs2
      unfold shutdown drain at hs2
      cases hd : drainFrom env (iteration t s).state.jobs.length 0 (iteration t s).state.jobs
        (iteration t s).state.w with
      | mk jobs1 r =>
        rw [hd] at hs2
        cases r with
        | panic w1 => cases hs2
        | ok w1 =>
          simp only [Run.returned.injEq] at hs2
          subst hs2
          have := drainFrom_quiet env hq _ 0 _ jobs1 _ w1 (by simp) hd
          simpa using this
  · -- a callback panicked during the tick-wait
    have hrun : ∀ ts1, runFrom (t :: ts1) env s = .crashed (iteration t s).state := by
      intro ts1
      generalize (iteration t s).state = s1 at hc ⊢
      simp only [runFrom, scheduler, hc]
    rw [hrun ts, hrun []]
    refine ⟨rfl, ?_, hov, hsh, LogExt.rflExt _ _, ⟨[], by simp [Run.state], by simp⟩, ?_⟩
    · intro k
      exact count_start_logExt hA hlog k
    · intro _ s2 hs2
      cases hs2

/-- C9 at the sample table with always running: the shutdown signal ends the
loop, later ticks do not matter, and Wait is called on always alone. -/
theorem C9_shutdown_stops_new_work_witness :
    shutdownTick.ev = .done ∧
    runFrom [shutdownTick, lateTick] quietDrain (afterFirstTick sampleNow) =
      runFrom [shutdownTick] quietDrain (afterFirstTick sampleNow) ∧
    (runFrom [shutdownTick, lateTick] quietDrain (afterFirstTick sampleNow)).state.w.overdueCounter
      = (afterFirstTick sampleNow).w.overdueCounter ∧
    waitsOf (runFrom [shutdownTick, lateTick] quietDrain
      (afterFirstTick sampleNow)).state.w.log = ["always"] :=
  ⟨rfl,
    (C9_shutdown_stops_new_work shutdownTick [lateTick] quietDrain
      (afterFirstTick sampleNow) rfl).2.2.1,
    (C9_shutdown_stops_new_work shutdownTick [lateTick] quietDrain
      (afterFirstTick sampleNow) rfl).2.2.2.2.1,
    by decide⟩

/-- C7, the code at the failing input: on the sample table, started 10 s into
minute 0, the preview simulates the instants 00:01:30 and 00:02:30 and prints
hourly and always for the first and always for the second; under an ideal
clock the live loop wakes at the same two instants, but at the first it finds
only always due, and at the second hourly and always, because its due-check
passes the reading taken before the tick-wait to ShouldRunAt. -/
theorem C7_live_due_check_uses_stale_reading :
    printScheduleAndExit (100 * Second) sampleNow sampleJobs =
      [(idealReading sampleNow 1, "hourly"), (idealReading sampleNow 1, "always"),
       (idealReading sampleNow 2, "always")] ∧
    (idealReading sampleNow 1).wall = 90 * Second ∧
    (idealReading sampleNow 2).wall = 150 * Second ∧
    dispatchedOf (main sampleJobs sampleNow (idealTicks sampleNow 1) quietDrain).state.w.log =
      ["always"] ∧
    dispatchedOf (main sampleJobs sampleNow (idealTicks sampleNow 2) quietDrain).state.w.log =
      ["always", "hourly", "always"] := by
  refine ⟨?_, ?_, ?_, ?_, ?_⟩ <;> decide

end Cdcron
